import Mathlib

/-!
Shallow embedding of the piece/grid simulation core of `src/js/tetris.ts`
(the `Game` and `Tet` classes of the electris repository).

Modelling conventions, used consistently below:

* JS numbers holding board coordinates are modelled as `Int`; matrix entries
  and counters as `Nat`; the score, whose update uses a fractional exponent,
  as `Real`.
* The `landed` occupancy array of `Game.getLanded` is modelled as a pure
  predicate over the list of pieces.  Its cache flag `updateLanded` is an
  optimisation with no observable effect at the granularity of the claims
  (every structural mutation in the source sets the flag before the next
  read), so it is modelled away.
* A read `landed[r][c]` outside `[0,16) x [0,10)` yields JS `undefined`
  whenever no out-of-bounds write happened, and every collision test compares
  with `!== 0`, so such a read counts as "occupied".  A read at a negative
  row index would throw in JS; it is modelled as "occupied" as well, and no
  verified statement depends on that corner.
* `Tet.pivotMax` is assigned by every `getShapeMatrix` call and only ever
  receives the value determined by `type`, so it is modelled as the derived
  function `pivotMaxOf` rather than a mutable field.
* `Tet.perimeter` and `Tet.getPerimeter` only feed rendering and are not
  modelled (the claims do not mention them).
-/

namespace Tetris

/-- Board position `(row, col)`; `(0, 0)` is the top left corner of the
16-row by 10-column board. -/
structure Pos where
  row : Int
  col : Int
deriving DecidableEq

/-- The fields of the `Tet` class read by the simulation core: `type`
(`0..6` for I,J,L,O,S,T,Z; the fragment constructor is `new Tet(game, -1)`),
`rotation` in `[0,3]`, the pivot-kick credit `pivot`, the board anchor
`topLeft` and the shape matrix `shape` (rows of possibly different
lengths). -/
structure Tet where
  type : Int
  rotation : Nat
  pivot : Nat
  topLeft : Pos
  shape : List (List Nat)
deriving DecidableEq

/-- The shape catalog `matrixMatrix` of `Tet.getShapeMatrix`, exactly as in
the source (trailing zeros of each row removed, as there). -/
def matrixMatrix : List (List (List (List Nat))) :=
  [ [ [[1,1,1,1]], [[1],[1],[1],[1]] ],
    [ [[1,1,1],[0,0,1]], [[0,1],[0,1],[1,1]], [[1],[1,1,1]], [[1,1],[1],[1]] ],
    [ [[1,1,1],[1]], [[1,1],[0,1],[0,1]], [[0,0,1],[1,1,1]], [[1],[1],[1,1]] ],
    [ [[1,1],[1,1]] ],
    [ [[0,1,1],[1,1]], [[1],[1,1],[0,1]] ],
    [ [[1,1,1],[0,1]], [[0,1],[1,1],[0,1]], [[0,1],[1,1,1]], [[1],[1,1],[1]] ],
    [ [[1,1],[0,1,1]], [[0,1],[1,1],[1]] ] ]

/-- The `pivotMax` value that `Tet.getShapeMatrix` assigns for a given
`type`: 3 for I (type 0), 0 for O (type 3), 1 otherwise. -/
def pivotMaxOf (ty : Int) : Nat :=
  if ty = 0 then 3 else if ty = 3 then 0 else 1

/-- `Tet.getShapeMatrix`: select the catalog row for `type`, then branch on
its length (1 entry: always entry 0; 2 entries: `rotation % 2`; 4 entries:
`rotation`).  In JS a `type` outside `[0,7)` or a `rotation` beyond the
selected row would read `undefined` and crash on the next use; both corners
are modelled as the empty matrix and are never exercised by the game (the
constructor and `rotate` only pass `type` in `[0,7)` and `rotation` in
`[0,3]`). -/
def getShapeMatrix (ty : Int) (rotation : Nat) : List (List Nat) :=
  if 0 ≤ ty ∧ ty < 7 then
    let m := matrixMatrix.getD ty.toNat []
    match m.length with
    | 1 => m.getD 0 []
    | 2 => m.getD (rotation % 2) []
    | 4 => m.getD rotation []
    | _ => []
  else []

/-- The `Tet` constructor for a non-fragment `type` in `[0,7)`: rotation 0,
pivot 0, anchor `(0, 4)`, shape from the catalog. -/
def mkTet (ty : Int) : Tet :=
  { type := ty, rotation := 0, pivot := 0, topLeft := ⟨0, 4⟩,
    shape := getShapeMatrix ty 0 }

/-- The local coordinates `(row, col)` of the non-zero cells of a shape
matrix, in the row-major order of the nested `for` loops of the source
(`for row < shape.length`, `for col < shape[row].length`,
`if shape[row][col] !== 0`). -/
def cellsOfShape (shape : List (List Nat)) : List (Nat × Nat) :=
  (List.range shape.length).flatMap fun r =>
    (List.range (shape.getD r []).length).filterMap fun c =>
      if (shape.getD r []).getD c 0 ≠ 0 then some (r, c) else none

/-- The board cells occupied by a piece: its shape cells translated by its
anchor. -/
def tetCells (t : Tet) : List Pos :=
  (cellsOfShape t.shape).map fun rc => ⟨t.topLeft.row + rc.1, t.topLeft.col + rc.2⟩

/-- Helper for `landedOcc`: scan the piece list with its index. -/
def landedOccGo (excl : List Nat) (p : Pos) : Nat → List Tet → Bool
  | _, [] => false
  | i, t :: ts =>
    (decide (i ∉ excl) && decide (p ∈ tetCells t)) || landedOccGo excl p (i + 1) ts

/-- `Game.getLanded`: `p` is occupied iff some piece whose index is not
excluded has a cell there.  The exclusion list stands for the pieces the
source skips (`currentTet` and the optional extra argument). -/
def landedOcc (tets : List Tet) (excl : List Nat) (p : Pos) : Bool :=
  landedOccGo excl p 0 tets

/-- One JS read `landed[p.row][p.col] !== 0`: inside the board it consults
the occupancy; outside it yields `undefined !== 0`, i.e. "occupied" (see the
module comment for the negative-row corner). -/
def landedRead (tets : List Tet) (excl : List Nat) (p : Pos) : Bool :=
  if 0 ≤ p.row ∧ p.row < 16 ∧ 0 ≤ p.col ∧ p.col < 10 then landedOcc tets excl p
  else true

/-- `Tet.doesTetCollideBot`: some non-zero cell of `shape` placed at `ptl`
reaches row 16 or hits the occupancy grid.  The source checks `row >= 16`
first and then reads `landed`; column bounds are not checked separately
because an out-of-range read counts as occupied. -/
def doesTetCollideBot (tets : List Tet) (excl : List Nat)
    (shape : List (List Nat)) (ptl : Pos) : Bool :=
  (cellsOfShape shape).any fun rc =>
    decide (16 ≤ ptl.row + (rc.1 : Int)) ||
      landedRead tets excl ⟨ptl.row + rc.1, ptl.col + rc.2⟩

/-- The three possible violations detected by `Tet.doesTetCollideSide`, in
the order its per-cell checks run: left of the board, right of the board,
overlap with the occupancy grid. -/
inductive SideViol where
  | left
  | right
  | overlap
deriving DecidableEq

/-- The scan of `Tet.doesTetCollideSide` over the non-zero cells of the
moving piece's shape, returning whether a collision was found together with
the piece's new `pivot` (the source mutates `this.pivot` at the first
violating cell and returns immediately).  Arguments: the occupancy context,
the piece's `type`, `rotation` and current `pivot`, the candidate anchor,
the caller's `direction` argument (`some 1` from `moveRight`, `none` from
`moveLeft`), and the remaining cells. -/
def sideScanGo (tets : List Tet) (excl : List Nat) (ty : Int) (rotation pivot : Nat)
    (ptl : Pos) (direction : Option Int) : List (Nat × Nat) → Bool × Nat
  | [] => (false, pivot)
  | rc :: rest =>
    let p : Pos := ⟨ptl.row + rc.1, ptl.col + rc.2⟩
    if p.col < 0 then (true, pivot)
    else if 10 ≤ p.col then
      (true, if pivot < pivotMaxOf ty ∧ rotation % 2 = 0 then pivot + 1 else pivot)
    else if landedRead tets excl p then
      (true,
        if direction = some 1 ∧ pivot < pivotMaxOf ty ∧ rotation % 2 = 0 then pivot + 1
        else pivot)
    else sideScanGo tets excl ty rotation pivot ptl direction rest

/-- `Tet.doesTetCollideSide` on a piece `t` (fields `type`, `rotation`,
`pivot`, `shape` are read from `t`): collision flag plus resulting
`pivot`. -/
def doesTetCollideSide (tets : List Tet) (excl : List Nat) (t : Tet) (ptl : Pos)
    (direction : Option Int) : Bool × Nat :=
  sideScanGo tets excl t.type t.rotation t.pivot ptl direction (cellsOfShape t.shape)

/-- Classifier of which violation the scan of `doesTetCollideSide` detects
first (`none` when the scan finds no collision). -/
def firstSideViolGo (tets : List Tet) (excl : List Nat) (ptl : Pos) :
    List (Nat × Nat) → Option SideViol
  | [] => none
  | rc :: rest =>
    let p : Pos := ⟨ptl.row + rc.1, ptl.col + rc.2⟩
    if p.col < 0 then some .left
    else if 10 ≤ p.col then some .right
    else if landedRead tets excl p then some .overlap
    else firstSideViolGo tets excl ptl rest

/-- First violation detected by the side-collision scan for piece `t` moved
to `ptl`. -/
def firstSideViolation (tets : List Tet) (excl : List Nat) (t : Tet) (ptl : Pos) :
    Option SideViol :=
  firstSideViolGo tets excl ptl (cellsOfShape t.shape)

/-- `Tet.moveLeft`: reset `pivot` to 0, then test the side collision one
column to the left; commit the move only when the test fails (the test's
`pivot` side effect applies either way). -/
def moveLeft (tets : List Tet) (excl : List Nat) (t : Tet) : Tet :=
  let t0 : Tet := { t with pivot := 0 }
  let ptl : Pos := ⟨t.topLeft.row, t.topLeft.col - 1⟩
  let res := doesTetCollideSide tets excl t0 ptl none
  if res.1 then { t0 with pivot := res.2 }
  else { t0 with pivot := res.2, topLeft := ptl }

/-- `Tet.moveRight`: test the side collision one column to the right with
`direction = 1`; commit the move only when the test fails. -/
def moveRight (tets : List Tet) (excl : List Nat) (t : Tet) : Tet :=
  let ptl : Pos := ⟨t.topLeft.row, t.topLeft.col + 1⟩
  let res := doesTetCollideSide tets excl t ptl (some 1)
  if res.1 then { t with pivot := res.2 }
  else { t with pivot := res.2, topLeft := ptl }

/-- `Tet.moveDown`, restricted to the piece itself: either the piece moves
one row down (second component `false`), or it is blocked and lands (second
component `true`; the caller then flips the game flags and runs
`collided`). -/
def moveDown (tets : List Tet) (excl : List Nat) (t : Tet) : Tet × Bool :=
  let ptl : Pos := ⟨t.topLeft.row + 1, t.topLeft.col⟩
  if doesTetCollideBot tets excl t.shape ptl then (t, true)
  else ({ t with topLeft := ptl }, false)

/-- The candidate rotation state of `Tet.rotate`:
`potRot = (rotation < 3 ? rotation + 1 : 0)`. -/
def rotateCand (t : Tet) : Nat :=
  if t.rotation < 3 then t.rotation + 1 else 0

/-- The collision loop of `Tet.rotate`: some non-zero cell of the candidate
shape, placed at the CURRENT anchor, fails one of the checks, in source
order: left bound, right bound, bottom bound, occupancy. -/
def rotateBlocked (tets : List Tet) (excl : List Nat) (t : Tet) : Bool :=
  (cellsOfShape (getShapeMatrix t.type (rotateCand t))).any fun rc =>
    decide (t.topLeft.col + (rc.2 : Int) < 0) ||
    decide (10 ≤ t.topLeft.col + (rc.2 : Int)) ||
    decide (16 ≤ t.topLeft.row + (rc.1 : Int)) ||
    landedRead tets excl ⟨t.topLeft.row + rc.1, t.topLeft.col + rc.2⟩

/-- `Tet.rotate`: run the collision loop on the candidate shape; on success
commit `topLeft.col += pivot`, `pivot = 0`, the new `rotation` and the new
`shape`.  Note that the committed anchor (`col + pivot`) is not the anchor
that was collision-checked (`col`). -/
def rotate (tets : List Tet) (excl : List Nat) (t : Tet) : Bool × Tet :=
  if rotateBlocked tets excl t then (false, t)
  else
    (true,
      { t with topLeft := ⟨t.topLeft.row, t.topLeft.col + t.pivot⟩, pivot := 0,
               rotation := rotateCand t, shape := getShapeMatrix t.type (rotateCand t) })

/-- The slice of the `Game` state that `Game.createTet` manipulates. -/
structure SpawnSt where
  tets : List Tet
  currentTet : Option Tet
  nextTet : Option Tet
  newTet : Bool
  gameOver : Bool
deriving DecidableEq

/-- `Game.createTet`.  The two random draws of the source are passed in as
`rand1` (first piece of a game, with the anti-S/Z adjustment `t--` applied
when it lands on 4 or 6) and `rand2` (the freshly drawn `nextTet`).  On a
spawn collision the colliding piece becomes `nextTet`, `gameOver` and
`newTet` are set, and `allTets` is left untouched; otherwise the piece is
pushed onto `allTets`. -/
def createTet (g : SpawnSt) (rand1 rand2 : Int) : SpawnSt :=
  let g1 := if g.nextTet = none then
      { g with nextTet := some (mkTet (if rand1 = 4 ∨ rand1 = 6 then rand1 - 1 else rand1)) }
    else g
  let g2 := if g1.newTet then
      { g1 with currentTet := g1.nextTet, nextTet := some (mkTet rand2), newTet := false }
    else { g1 with newTet := false }
  let g3 := if g2.currentTet = none then { g2 with currentTet := g2.nextTet } else g2
  match g3.currentTet with
  | none => g3
  | some cur =>
    if doesTetCollideBot g3.tets [] cur.shape cur.topLeft then
      { g3 with nextTet := some cur, gameOver := true, newTet := true }
    else { g3 with tets := g3.tets ++ [cur] }

/-- One full row test of `Tet.collided`: every one of the 10 columns of row
`r` is occupied (`landed[row][col] === 0` never holds). -/
def isRowFull (tets : List Tet) (r : Int) : Bool :=
  (List.range 10).all fun c => landedRead tets [] ⟨r, (c : Int)⟩

/-- The full-row scan of `Tet.collided`: the rows from the landed piece's
`topLeft.row` down to row 15 that are completely occupied, in increasing
order.  (The source loop starts exactly at `this.topLeft.row`; a negative
start would crash in JS and cannot occur, so rows below 0 are skipped.) -/
def fullRowsFrom (tets : List Tet) (startRow : Int) : List Int :=
  ((List.range 16).map fun n => (n : Int)).filter fun r =>
    decide (startRow ≤ r) && isRowFull tets r

/-- The score update of `Tet.collided`
(`score += (fRLen ** (1 + (fRLen - 1) * 0.1)) * 10000`, skipped entirely
when no full row was found).  JS floating point is modelled by real
arithmetic. -/
noncomputable def scoreAfterLanding (tets : List Tet) (startRow : Int) (score : Real) :
    Real :=
  let fRLen := (fullRowsFrom tets startRow).length
  if fRLen = 0 then score
  else score + (fRLen : Real) ^ ((1 : Real) + ((fRLen : Real) - 1) * 0.1) * 10000

/-- `Tet.arrayIsAllZeros`: no entry of the row is `> 0`. -/
def arrayIsAllZeros (arr : List Nat) : Bool :=
  arr.all fun v => !decide (0 < v)

/-- `Tet.alterShape` without its trailing `updateTet` call: overwrite with
zeros every shape row whose board row is listed in `fullRows` (rows outside
the shape are skipped). -/
def alterShape (t : Tet) (fullRows : List Int) : Tet :=
  { t with shape := fullRows.foldl (fun sh fr =>
      let r := fr - t.topLeft.row
      if 0 ≤ r ∧ r < (sh.length : Int) then
        sh.set r.toNat ((sh.getD r.toNat []).map fun _ => 0)
      else sh) t.shape }

/-- A fragment candidate produced by `Tet.updateTet`: a shape together with
its board anchor. -/
structure Frag where
  shape : List (List Nat)
  topLeft : Pos
deriving DecidableEq

/-- The fragment-collecting loop of `Tet.updateTet`: walk the shape rows in
order (row index `r` counts from the piece's anchor), extend the current run
`currShape` at each non-all-zero row (starting a run records the board
anchor of its first row), and close the run into the queue `q` at each
all-zero row.  A still-open run is pushed at the end. -/
def updateQGo (origTL : Pos) : Nat → List (List Nat) → List (List Nat) → Pos →
    List Frag → List Frag
  | _, [], currShape, tl, q =>
    if 0 < currShape.length then q ++ [⟨currShape, tl⟩] else q
  | r, row :: rest, currShape, tl, q =>
    if arrayIsAllZeros row = false then
      updateQGo origTL (r + 1) rest (currShape ++ [row])
        (if currShape.isEmpty then ⟨origTL.row + r, origTL.col⟩ else tl) q
    else if currShape.isEmpty then updateQGo origTL (r + 1) rest currShape tl q
    else updateQGo origTL (r + 1) rest [] tl (q ++ [⟨currShape, tl⟩])

/-- The queue of fragment candidates that `Tet.updateTet` builds from a
piece's shape. -/
def updateQ (t : Tet) : List Frag :=
  updateQGo t.topLeft 0 t.shape [] t.topLeft []

/-- Head test of the leading-column loop of `Tet.cleanShape`:
`shape[row][0] > 0` (a missing entry reads `undefined > 0`, i.e. false). -/
def anyHeadPos (shape : List (List Nat)) : Bool :=
  shape.any fun row => decide (0 < row.headD 0)

/-- The leading-zero-column stripping loop of `Tet.cleanShape` with explicit
fuel: while no row starts with a positive entry, drop the first entry of
every row and bump the anchor column.  `none` means the fuel was exhausted
before the loop exited (on such inputs the JS loop would run forever or spin
on empty rows; the fragmentation engine never produces them). -/
def stripLeadingCols : Nat → List (List Nat) → Int → Option (List (List Nat) × Int)
  | 0, _, _ => none
  | fuel + 1, shape, col =>
    if anyHeadPos shape then some (shape, col)
    else stripLeadingCols fuel (shape.map List.tail) (col + 1)

/-- The trailing-zero strip of `Tet.cleanShape`: remove zeros from the end
of a row until a non-zero entry (or the start) is reached. -/
def stripTrailingZeros (row : List Nat) : List Nat :=
  (row.reverse.dropWhile fun v => decide (v = 0)).reverse

/-- Length of the shortest row of a shape (0 for the empty shape). -/
def minRowLen : List (List Nat) → Nat
  | [] => 0
  | r :: rs => rs.foldl (fun m row => min m row.length) r.length

/-- `Tet.cleanShape`: strip leading all-zero columns (bumping the anchor
column once per stripped column), then strip trailing zeros from every row.
The fuel `minRowLen + 1` is sufficient for every input whose rows each
contain a non-zero entry (proved below); the fallback branch models the
inputs on which the JS loop would not terminate and is never reached by the
fragmentation engine. -/
def cleanShape (fr : Frag) : Frag :=
  match stripLeadingCols (minRowLen fr.shape + 1) fr.shape fr.topLeft.col with
  | some sc => ⟨sc.1.map stripTrailingZeros, ⟨fr.topLeft.row, sc.2⟩⟩
  | none => ⟨fr.shape.map stripTrailingZeros, fr.topLeft⟩

/-- `Tet.updateTet`: build the fragment queue; with an empty queue the piece
is marked for removal (`none`); otherwise the first cleaned fragment updates
the piece in place and every further cleaned fragment becomes a new piece.
The source builds those with `new Tet(this.game, -1)` (which leaves
`rotation` and `pivot` unset; they are never read on fragments and are
modelled as 0) and then assigns `newTet.type = this.type`. -/
def updateTet (t : Tet) : Option Tet × List Tet :=
  match updateQ t with
  | [] => (none, [])
  | first :: rest =>
    let c0 := cleanShape first
    (some { t with topLeft := c0.topLeft, shape := c0.shape },
      rest.map fun fr =>
        let fc := cleanShape fr
        { type := t.type, rotation := 0, pivot := 0, topLeft := fc.topLeft,
          shape := fc.shape })

/-- `Game.alterShapes`: every piece whose anchor row lies in
`(firstRow - 4, lastRow]` is altered and re-fragmented; pieces marked for
removal are spliced out (the `tetsToRemove[i] - i` arithmetic of the source
deletes exactly the marked original indices), and all new fragments were
pushed onto the end of `allTets`, in processing order. -/
def alterShapes (tets : List Tet) (fullRows : List Int) : List Tet :=
  match fullRows with
  | [] => tets
  | f0 :: _ =>
    let lastRow := fullRows.getLastD 0
    let processed := tets.map fun t =>
      if t.topLeft.row ≤ f0 - 4 ∨ lastRow < t.topLeft.row then (some t, ([] : List Tet))
      else updateTet (alterShape t fullRows)
    (processed.filterMap Prod.fst) ++ (processed.map Prod.snd).flatten

/-- The row-clear part of `Tet.collided` on the piece list: detect full rows
from `startRow` down; when none exist nothing happens, otherwise the shapes
are altered and re-fragmented. -/
def clearStep (tets : List Tet) (startRow : Int) : List Tet :=
  let fr := fullRowsFrom tets startRow
  if fr.isEmpty then tets else alterShapes tets fr

/-- One iteration of the `for` loop inside the settling `while` loop of
`Tet.collided`, processed index by index: skip pieces already moved this
round (`mv`) and the current piece (only when `newTet` is not set, as in the
source); move every other piece one row down when its bottom collision test
(whose grid excludes the piece itsef and `currentTet`) fails, recording the
move.  The last component reports whether this pass moved anything
(`tetsMoved`). -/
def settlePassGo (cur : Option Nat) (ntf : Bool) :
    List Nat → List Tet → List Nat → Bool → List Tet × List Nat × Bool
  | [], tets, mv, moved => (tets, mv, moved)
  | i :: rest, tets, mv, moved =>
    if i ∈ mv ∨ (cur = some i ∧ ntf = false) then
      settlePassGo cur ntf rest tets mv moved
    else
      match tets.get? i with
      | none => settlePassGo cur ntf rest tets mv moved
      | some t =>
        if doesTetCollideBot tets (i :: cur.toList) t.shape
            ⟨t.topLeft.row + 1, t.topLeft.col⟩ then
          settlePassGo cur ntf rest tets mv moved
        else
          settlePassGo cur ntf rest
            (tets.set i { t with topLeft := ⟨t.topLeft.row + 1, t.topLeft.col⟩ })
            (mv ++ [i]) true

/-- One full pass over all piece indices (`tetsMoved` starts false). -/
def settlePass (cur : Option Nat) (ntf : Bool) (tets : List Tet) (mv : List Nat) :
    List Tet × List Nat × Bool :=
  settlePassGo cur ntf (List.range tets.length) tets mv false

/-- The `while (tetsMoved)` loop of one settling round: repeat passes until
a pass moves nothing.  The fuel bound `tets.length + 1` is proved sufficient
below (each productive pass enlarges `mv`). -/
def settleTickGo (cur : Option Nat) (ntf : Bool) :
    Nat → List Tet → List Nat → List Tet × List Nat
  | 0, tets, mv => (tets, mv)
  | fuel + 1, tets, mv =>
    if (settlePass cur ntf tets mv).2.2 then
      settleTickGo cur ntf fuel (settlePass cur ntf tets mv).1
        (settlePass cur ntf tets mv).2.1
    else ((settlePass cur ntf tets mv).1, (settlePass cur ntf tets mv).2.1)

/-- One settling round (one tick of the source's `moveLoop` interval):
passes run to quiescence with a fresh `movingTets`; the second component
tells whether any piece moved this round (`movingTets.length !== 0`). -/
def settleTick (cur : Option Nat) (ntf : Bool) (tets : List Tet) : List Tet × Bool :=
  ((settleTickGo cur ntf (tets.length + 1) tets []).1,
    !(settleTickGo cur ntf (tets.length + 1) tets []).2.isEmpty)

/-- Termination measure for the settling rounds: total headroom of all
anchors above row 16. -/
def settleMeasure (tets : List Tet) : Nat :=
  (tets.map fun t => (16 - t.topLeft.row).toNat).sum

/-- Iterate settling rounds until a round moves zero pieces, with explicit
fuel. -/
def settleGo (cur : Option Nat) (ntf : Bool) : Nat → List Tet → List Tet
  | 0, tets => tets
  | fuel + 1, tets =>
    if (settleTick cur ntf tets).2 then
      settleGo cur ntf fuel (settleTick cur ntf tets).1
    else (settleTick cur ntf tets).1

/-- The settling loop of `Tet.collided` run to its fixed point; the fuel
`settleMeasure + 1` is proved sufficient below whenever every piece has at
least one non-zero cell. -/
def settle (cur : Option Nat) (ntf : Bool) (tets : List Tet) : List Tet :=
  settleGo cur ntf (settleMeasure tets + 1) tets

/-- The full cascade of `Tet.collided` with explicit recursion fuel: detect
full rows from `startRow`; if none, stop; otherwise add the score bonus,
alter/fragment the shapes, settle to the fixed point, and run the detection
again (the source's recursive `that.collided()` call once `movingTets` comes
back empty). -/
noncomputable def collidedCascade (cur : Option Nat) (ntf : Bool) :
    Nat → List Tet → Int → Real → List Tet × Real
  | 0, tets, _, score => (tets, score)
  | fuel + 1, tets, startRow, score =>
    let fr := fullRowsFrom tets startRow
    if fr.length = 0 then (tets, score)
    else
      collidedCascade cur ntf fuel (settle cur ntf (alterShapes tets fr)) startRow
        (score + (fr.length : Real) ^ ((1 : Real) + ((fr.length : Real) - 1) * 0.1) * 10000)

/-- The whole-game state used to replay input sequences: the live pieces,
the index of the active piece, and the `newTet` / `gameOver` flags. -/
structure SimState where
  tets : List Tet
  current : Option Nat
  newTet : Bool
  gameOver : Bool

/-- The externally triggered operations of the core, at the granularity the
spec describes: spawning (with the random draw as data), the four player
moves, a row-clear step after a landing (with the landed piece's row as
data), and one settling round. -/
inductive Act where
  | spawn (ty : Int)
  | left
  | right
  | down
  | rot
  | clear (startRow : Int)
  | settleRound

/-- Apply one operation to the game state.  Moves and rotations only act
when a current piece exists and the game is running (`canTetMove`); a
blocked `down` performs the landing transition (`newTet = true`,
`currentTet = null`).  A spawn whose piece collides at its initial anchor
sets `gameOver` and does not add the piece (per `createTet`). -/
def applyAct (g : SimState) (a : Act) : SimState :=
  match a with
  | .spawn ty =>
    if g.newTet = true ∧ g.gameOver = false ∧ 0 ≤ ty ∧ ty < 7 then
      let piece := mkTet ty
      if doesTetCollideBot g.tets [] piece.shape piece.topLeft then
        { g with gameOver := true }
      else
        { g with tets := g.tets ++ [piece], current := some g.tets.length,
                 newTet := false }
    else g
  | .left =>
    match g.current with
    | none => g
    | some i =>
      match g.tets.get? i with
      | none => g
      | some t =>
        if g.newTet = false ∧ g.gameOver = false then
          { g with tets := g.tets.set i (moveLeft g.tets [i] t) }
        else g
  | .right =>
    match g.current with
    | none => g
    | some i =>
      match g.tets.get? i with
      | none => g
      | some t =>
        if g.newTet = false ∧ g.gameOver = false then
          { g with tets := g.tets.set i (moveRight g.tets [i] t) }
        else g
  | .down =>
    match g.current with
    | none => g
    | some i =>
      match g.tets.get? i with
      | none => g
      | some t =>
        if g.newTet = false ∧ g.gameOver = false then
          let r := moveDown g.tets [i] t
          if r.2 then { g with current := none, newTet := true }
          else { g with tets := g.tets.set i r.1 }
        else g
  | .rot =>
    match g.current with
    | none => g
    | some i =>
      match g.tets.get? i with
      | none => g
      | some t =>
        if g.newTet = false ∧ g.gameOver = false then
          { g with tets := g.tets.set i (rotate g.tets [i] t).2 }
        else g
  | .clear startRow => { g with tets := clearStep g.tets startRow }
  | .settleRound => { g with tets := (settleTick g.current g.newTet g.tets).1 }

/-- The initial game state: no pieces, no active piece, a spawn pending. -/
def initState : SimState :=
  { tets := [], current := none, newTet := true, gameOver := false }

/-- Replay a sequence of operations from the initial state. -/
def runActs (acts : List Act) : SimState :=
  acts.foldl applyAct initState

/-- A position lies on the 16 x 10 board. -/
def inBoundsB (p : Pos) : Bool :=
  decide (0 ≤ p.row) && decide (p.row < 16) && decide (0 ≤ p.col) && decide (p.col < 10)

/-- No two pieces of the list share a board cell. -/
def tetsDisjointB : List Tet → Bool
  | [] => true
  | t :: ts =>
    (ts.all fun u => (tetCells t).all fun p => decide (p ∉ tetCells u)) &&
      tetsDisjointB ts

/-- The board invariant claimed by the spec: every occupied cell of every
live piece lies within `[0,16) x [0,10)`, and no two live pieces overlap. -/
def boardInvB (tets : List Tet) : Bool :=
  (tets.all fun t => (tetCells t).all inBoundsB) && tetsDisjointB tets

/-- Board cells of a fragment candidate (same convention as `tetCells`). -/
def fragCells (fr : Frag) : List Pos :=
  (cellsOfShape fr.shape).map fun rc => ⟨fr.topLeft.row + rc.1, fr.topLeft.col + rc.2⟩

/-- Claim-side count of the full rows detected by one landing event (the
number of board rows at or below `startRow` whose 10 columns are all
occupied). -/
def clearedRowCount (tets : List Tet) (startRow : Int) : Nat :=
  ((List.range 16).map fun n => (n : Int)).countP fun r =>
    decide (startRow ≤ r) && isRowFull tets r

/-- A player input applied to a single piece, together with the occupancy
context against which its collision checks run (the rest of the board may
change arbitrarily between two inputs). -/
inductive TetAct where
  | ml (tets : List Tet) (excl : List Nat)
  | mr (tets : List Tet) (excl : List Nat)
  | md (tets : List Tet) (excl : List Nat)
  | rt (tets : List Tet) (excl : List Nat)

/-- Apply one piece-level input. -/
def applyTetAct (t : Tet) : TetAct → Tet
  | .ml tets excl => moveLeft tets excl t
  | .mr tets excl => moveRight tets excl t
  | .md tets excl => (moveDown tets excl t).1
  | .rt tets excl => (rotate tets excl t).2

/-- Apply a sequence of piece-level inputs. -/
def applyTetActs (t : Tet) (acts : List TetAct) : Tet :=
  acts.foldl applyTetAct t

/-- An input sequence of the real game: an I piece is spawned, rotated
upright, moved to the right wall and dropped (it lands filling column 9 of
rows 12-15); a T piece is spawned, moved under the overhang to column 7 and
dropped to row 11; a right move fails against the right boundary and
earns a pivot kick; the following rotation is collision-checked at column 7
but committed at column 8, where the rotated T overlaps the I. -/
def bugTrace : List Act :=
  [Act.spawn 0, Act.rot] ++ List.replicate 5 Act.right ++
    List.replicate 13 Act.down ++ [Act.spawn 5] ++ List.replicate 3 Act.right ++
    List.replicate 11 Act.down ++ [Act.right, Act.rot]

/-- A horizontal I piece standing at column 6 (columns 6-9 of row 0). -/
def iTet : Tet :=
  { type := 0, rotation := 0, pivot := 0, topLeft := ⟨0, 6⟩, shape := [[1,1,1,1]] }

/-- A horizontal I piece at the left wall. -/
def lTet : Tet :=
  { type := 0, rotation := 0, pivot := 0, topLeft := ⟨0, 0⟩, shape := [[1,1,1,1]] }

/-- A single landed cell at `(0, 7)`. -/
def blockerTet : Tet :=
  { type := 1, rotation := 0, pivot := 0, topLeft := ⟨0, 7⟩, shape := [[1]] }

/-- A single landed cell at the spawn anchor `(0, 4)`. -/
def spawnBlockerTet : Tet :=
  { type := 1, rotation := 0, pivot := 0, topLeft := ⟨0, 4⟩, shape := [[1]] }

/-- A vertical I piece whose third row was zeroed by a row clear: the shape
`[[1],[1],[0],[1]]` anchored at `(12, 3)`. -/
def slicedTet : Tet :=
  { type := 0, rotation := 1, pivot := 0, topLeft := ⟨12, 3⟩, shape := [[1],[1],[0],[1]] }

/-- A single loose cell at `(0, 0)`, used to exercise the settling loop. -/
def looseTet : Tet :=
  { type := 1, rotation := 0, pivot := 0, topLeft := ⟨0, 0⟩, shape := [[1]] }

end Tetris

namespace Tetris

/-! ### General lemmas about the embedding -/

/-- Membership in `cellsOfShape` is exactly a non-zero matrix entry
(out-of-range indices read the default 0). -/
theorem mem_cellsOfShape {shape : List (List Nat)} {r c : Nat} :
    (r, c) ∈ cellsOfShape shape ↔ (shape.getD r []).getD c 0 ≠ 0 := by
  simp only [cellsOfShape, List.mem_flatMap, List.mem_range, List.mem_filterMap]
  constructor
  · rintro ⟨r2, hr2, c2, hc2, hsome⟩
    split at hsome
    · rename_i hv
      injection hsome with h
      injection h with h1 h2
      subst h1
      subst h2
      exact hv
    · exact Option.noConfusion hsome
  · intro hv
    have hr : r < shape.length := by
      by_contra hr
      rw [List.getD_eq_default _ _ (Nat.le_of_not_lt hr)] at hv
      rw [List.getD_nil] at hv
      exact hv rfl
    have hc : c < (shape.getD r []).length := by
      by_contra hc
      rw [List.getD_eq_default _ _ (Nat.le_of_not_lt hc)] at hv
      exact hv rfl
    exact ⟨r, hr, c, hc, by rw [if_pos hv]⟩

/-- The side-collision scan returns exactly what its first detected
violation dictates: no violation leaves `pivot` alone and reports no
collision; a left-bound violation reports a collision with `pivot`
untouched; a right-bound violation increments `pivot` exactly when
`pivot < pivotMax` and the rotation is even (independently of `direction`);
an overlap additionally demands `direction = 1`. -/
theorem sideScanGo_spec (tets : List Tet) (excl : List Nat) (ty : Int)
    (rotAmt pv : Nat) (ptl : Pos) (dir : Option Int) (cells : List (Nat × Nat)) :
    sideScanGo tets excl ty rotAmt pv ptl dir cells =
      match firstSideViolGo tets excl ptl cells with
      | none => (false, pv)
      | some .left => (true, pv)
      | some .right =>
        (true, if pv < pivotMaxOf ty ∧ rotAmt % 2 = 0 then pv + 1 else pv)
      | some .overlap =>
        (true,
          if dir = some 1 ∧ pv < pivotMaxOf ty ∧ rotAmt % 2 = 0 then pv + 1 else pv) := by
  induction cells with
  | nil => rfl
  | cons rc rest ih =>
    simp only [sideScanGo, firstSideViolGo]
    split
    · rfl
    · split
      · rfl
      · split
        · rfl
        · exact ih

/-- When the side-collision scan reports no collision, no scanned cell can
lie left of the board. -/
theorem sideScanGo_false_no_left (tets : List Tet) (excl : List Nat) (ty : Int)
    (rotAmt pv : Nat) (ptl : Pos) (dir : Option Int) (cells : List (Nat × Nat))
    (h : (sideScanGo tets excl ty rotAmt pv ptl dir cells).1 = false) :
    ∀ rc ∈ cells, ¬(ptl.col + (rc.2 : Int) < 0) := by
  induction cells with
  | nil =>
    intro rc hrc
    cases hrc
  | cons a rest ih =>
    rw [sideScanGo] at h
    intro rc hrc
    rcases List.mem_cons.mp hrc with hrc | hrc
    · subst hrc
      split at h
      · exact absurd h (by simp)
      · rename_i hcol
        exact hcol
    · split at h
      · exact absurd h (by simp)
      · split at h
        · exact absurd h (by simp)
        · split at h
          · exact absurd h (by simp)
          · exact ih h rc hrc

/-- With a zero `pivotMax` budget already used up, the side-collision scan
never changes `pivot`. -/
theorem sideScanGo_snd_of_budget (tets : List Tet) (excl : List Nat) (ty : Int)
    (rotAmt pv : Nat) (ptl : Pos) (dir : Option Int) (cells : List (Nat × Nat))
    (hmax : pivotMaxOf ty ≤ pv) :
    (sideScanGo tets excl ty rotAmt pv ptl dir cells).2 = pv := by
  have hnl : ¬(pv < pivotMaxOf ty) := Nat.not_lt.mpr hmax
  rw [sideScanGo_spec]
  rcases firstSideViolGo tets excl ptl cells with _ | v
  · rfl
  · cases v <;> simp [hnl]

/-- The O catalog row has a single entry, so every rotation state selects
the same O shape. -/
theorem getShapeMatrix_O (r : Nat) : getShapeMatrix 3 r = [[1, 1], [1, 1]] := rfl

/-! ### C2 -/

/-- C2: a landing event that detects `n` full rows adds exactly
`n ^ (1 + (n - 1) * 0.1) * 10000` to the score when `n ≥ 1` and leaves the
score unchanged when `n = 0` (real arithmetic models JS floating point). -/
theorem c2_score (tets : List Tet) (startRow : Int) (score : Real) :
    scoreAfterLanding tets startRow score =
      if clearedRowCount tets startRow = 0 then score
      else
        score + (clearedRowCount tets startRow : Real) ^
          ((1 : Real) + ((clearedRowCount tets startRow : Real) - 1) * 0.1) * 10000 := by
  have h : (fullRowsFrom tets startRow).length = clearedRowCount tets startRow := by
    rw [fullRowsFrom, clearedRowCount, List.countP_eq_length_filter]
  simp only [scoreAfterLanding, h]

/-! ### C3 -/

/-- C3: for a non-fragment piece with a legal rotation state, a successful
`rotate` commits exactly the catalog entry for
`(type, (rotation + 1) mod 4)`, adds `pivot` to the anchor column, resets
`pivot`, keeps the anchor row, and advances `rotation` by one mod 4. -/
theorem c3_rotate_commit (tets : List Tet) (excl : List Nat) (t : Tet)
    (hty : 0 ≤ t.type ∧ t.type < 7) (hrot : t.rotation < 4)
    (hs : (rotate tets excl t).1 = true) :
    (rotate tets excl t).2.shape = getShapeMatrix t.type ((t.rotation + 1) % 4) ∧
    (rotate tets excl t).2.topLeft.col = t.topLeft.col + t.pivot ∧
    (rotate tets excl t).2.topLeft.row = t.topLeft.row ∧
    (rotate tets excl t).2.pivot = 0 ∧
    (rotate tets excl t).2.rotation = (t.rotation + 1) % 4 := by
  have hpot : rotateCand t = (t.rotation + 1) % 4 := by
    rw [rotateCand]
    rcases Nat.lt_or_ge t.rotation 3 with h | h
    · rw [if_pos h, Nat.mod_eq_of_lt (by omega)]
    · have h3 : t.rotation = 3 := by omega
      rw [if_neg (by omega), h3]
  rw [rotate] at hs ⊢
  split at hs
  · exact absurd hs (by simp)
  · rename_i hnb
    rw [if_neg hnb]
    simp [hpot]

/-- Witness for C3: rotating a freshly spawned I piece on an empty board
succeeds and commits the vertical catalog shape. -/
theorem c3_rotate_commit_witness :
    (rotate [mkTet 0] [0] (mkTet 0)).2.shape = getShapeMatrix 0 ((0 + 1) % 4) ∧
    (rotate [mkTet 0] [0] (mkTet 0)).2.topLeft.col = 4 + 0 ∧
    (rotate [mkTet 0] [0] (mkTet 0)).2.topLeft.row = 0 ∧
    (rotate [mkTet 0] [0] (mkTet 0)).2.pivot = 0 ∧
    (rotate [mkTet 0] [0] (mkTet 0)).2.rotation = (0 + 1) % 4 :=
  c3_rotate_commit [mkTet 0] [0] (mkTet 0) (by decide) (by decide) (by decide)

/-! ### C5 -/

/-- C5 (amended): a failed rotation is a complete no-op; a failed left or
right move leaves the anchor, shape and rotation unchanged (but may change
`pivot`: `moveLeft` resets it before testing, and a blocked `moveRight` may
increment it); and a left move on a piece at column 0 whose shape occupies
its column 0 always fails and keeps the anchor. -/
theorem c5_amended :
    (∀ tets excl t, (rotate tets excl t).1 = false → (rotate tets excl t).2 = t) ∧
    (∀ tets excl t,
      (doesTetCollideSide tets excl { t with pivot := 0 }
          ⟨t.topLeft.row, t.topLeft.col - 1⟩ none).1 = true →
      (moveLeft tets excl t).topLeft = t.topLeft ∧
      (moveLeft tets excl t).shape = t.shape ∧
      (moveLeft tets excl t).rotation = t.rotation) ∧
    (∀ tets excl t,
      (doesTetCollideSide tets excl t
          ⟨t.topLeft.row, t.topLeft.col + 1⟩ (some 1)).1 = true →
      (moveRight tets excl t).topLeft = t.topLeft ∧
      (moveRight tets excl t).shape = t.shape ∧
      (moveRight tets excl t).rotation = t.rotation) ∧
    (∀ tets excl t, t.topLeft.col = 0 →
      (∃ rc ∈ cellsOfShape t.shape, rc.2 = 0) →
      (doesTetCollideSide tets excl { t with pivot := 0 }
          ⟨t.topLeft.row, t.topLeft.col - 1⟩ none).1 = true ∧
      (moveLeft tets excl t).topLeft = t.topLeft) := by
  have hleft : ∀ tets excl t,
      (doesTetCollideSide tets excl { t with pivot := 0 }
          ⟨t.topLeft.row, t.topLeft.col - 1⟩ none).1 = true →
      (moveLeft tets excl t).topLeft = t.topLeft ∧
      (moveLeft tets excl t).shape = t.shape ∧
      (moveLeft tets excl t).rotation = t.rotation := by
    intro tets excl t h
    simp only [moveLeft]
    rw [if_pos h]
    exact ⟨rfl, rfl, rfl⟩
  refine ⟨?_, hleft, ?_, ?_⟩
  · intro tets excl t h
    rw [rotate] at h ⊢
    split at h
    · rename_i hcol
      rw [if_pos hcol]
    · exact absurd h (by simp)
  · intro tets excl t h
    simp only [moveRight]
    rw [if_pos h]
    exact ⟨rfl, rfl, rfl⟩
  · intro tets excl t hcol hcell
    have hfail : (doesTetCollideSide tets excl { t with pivot := 0 }
        ⟨t.topLeft.row, t.topLeft.col - 1⟩ none).1 = true := by
      by_contra h
      rw [Bool.not_eq_true] at h
      obtain ⟨rc, hrc, hc0⟩ := hcell
      have := sideScanGo_false_no_left tets excl t.type t.rotation 0
        ⟨t.topLeft.row, t.topLeft.col - 1⟩ none (cellsOfShape t.shape) h rc hrc
      rw [hc0] at this
      simp only [hcol] at this
      omega
    exact ⟨hfail, (hleft tets excl t hfail).1⟩

/-- Witness for C5: a left move against the left wall fails and keeps the
anchor of a horizontal I piece at column 0. -/
theorem c5_amended_witness : (moveLeft [lTet] [0] lTet).topLeft = lTet.topLeft :=
  (c5_amended.2.2.2 [lTet] [0] lTet (by decide) (by decide)).2

/-- C5 counterexample: moving the horizontal I piece at columns 6-9 to the
right is illegal (the anchor does not move), yet the request mutates the
piece: `pivot` goes from 0 to 1.  The claim that every illegal move leaves
the entire state unchanged is false. -/
theorem c5_counterexample :
    (moveRight [iTet] [0] iTet).topLeft = iTet.topLeft ∧
    iTet.pivot = 0 ∧ (moveRight [iTet] [0] iTet).pivot = 1 := by decide

/-! ### C6 -/

/-- C6: when the pending next piece collides at its spawn anchor `(0, 4)`,
`createTet` transitions to game over, retains the colliding piece as the
next piece, and leaves the live piece list untouched. -/
theorem c6_spawn_gameover (g : SpawnSt) (r1 r2 : Int) (t : Tet)
    (hnew : g.newTet = true) (hnext : g.nextTet = some t)
    (hanchor : t.topLeft = ⟨0, 4⟩)
    (hcol : doesTetCollideBot g.tets [] t.shape t.topLeft = true) :
    createTet g r1 r2 =
      { g with currentTet := some t, nextTet := some t, gameOver := true,
               newTet := true } := by
  rw [createTet]
  simp only [hnext, hnew, reduceCtorEq, if_false, if_true]
  simp only [hcol, if_true]

/-- Witness for C6: an O piece pending at `(0, 4)` with a landed cell
already there cannot spawn; the game flips to game over with the O retained
as next and the piece list unchanged. -/
theorem c6_spawn_gameover_witness :
    createTet ⟨[spawnBlockerTet], none, some (mkTet 3), true, false⟩ 0 0 =
      { tets := [spawnBlockerTet], currentTet := some (mkTet 3),
        nextTet := some (mkTet 3), newTet := true, gameOver := true } :=
  c6_spawn_gameover ⟨[spawnBlockerTet], none, some (mkTet 3), true, false⟩ 0 0
    (mkTet 3) rfl rfl (by decide) (by decide)

/-! ### C8 -/

/-- C8 (amended): classified by the FIRST violating cell of the scan (the
source returns at the first violation), a right-boundary violation
increments `pivot` under `pivot < pivotMax` and even rotation for every
caller `direction`, while an overlap violation additionally requires
`direction = 1`. -/
theorem c8_amended (tets : List Tet) (excl : List Nat) (t : Tet) (ptl : Pos) :
    (∀ dir, firstSideViolation tets excl t ptl = some .right →
      doesTetCollideSide tets excl t ptl dir =
        (true, if t.pivot < pivotMaxOf t.type ∧ t.rotation % 2 = 0 then t.pivot + 1
               else t.pivot)) ∧
    (∀ dir, firstSideViolation tets excl t ptl = some .overlap →
      doesTetCollideSide tets excl t ptl dir =
        (true, if dir = some 1 ∧ t.pivot < pivotMaxOf t.type ∧ t.rotation % 2 = 0
               then t.pivot + 1 else t.pivot)) := by
  constructor <;> intro dir h <;>
    rw [firstSideViolation] at h <;>
    rw [doesTetCollideSide, sideScanGo_spec, h]

/-- Witness for C8: the I piece at candidate anchor `(0, 7)` on an empty
board first violates the right boundary, and the scan increments `pivot`
even though no `direction` flag was passed. -/
theorem c8_amended_witness :
    doesTetCollideSide [iTet] [0] iTet ⟨0, 7⟩ none =
      (true, if iTet.pivot < pivotMaxOf iTet.type ∧ iTet.rotation % 2 = 0
             then iTet.pivot + 1 else iTet.pivot) :=
  (c8_amended [iTet] [0] iTet ⟨0, 7⟩).1 none (by decide)

/-- C8 counterexample: at candidate anchor `(0, 7)` the I piece has a
non-zero cell crossing the right boundary (`7 + 3 ≥ 10`), its rotation is
even and its `pivot` is below `pivotMax`, yet because the scan meets an
occupied cell at `(0, 7)` first and the caller passed no `direction` flag,
`pivot` is NOT incremented: the unconditional reading of the claim is
false. -/
theorem c8_counterexample :
    (∃ rc ∈ cellsOfShape iTet.shape, (10 : Int) ≤ 7 + rc.2) ∧
    iTet.rotation % 2 = 0 ∧ iTet.pivot < pivotMaxOf iTet.type ∧
    firstSideViolation [iTet, blockerTet] [0] iTet ⟨0, 7⟩ = some .overlap ∧
    doesTetCollideSide [iTet, blockerTet] [0] iTet ⟨0, 7⟩ none =
      (true, iTet.pivot) := by decide

/-! ### C9 -/

/-- C9 (amended): an O piece (type 3, `pivotMax` 0) in its canonical shape
and with no pivot credit keeps `pivot = 0`, its shape and its type under
every sequence of move and rotate inputs in arbitrary occupancy contexts
(`rotation` itself may advance on successful rotations, see the
counterexample). -/
theorem c9_amended (t : Tet) (h3 : t.type = 3) (hp : t.pivot = 0)
    (hs : t.shape = [[1, 1], [1, 1]]) (acts : List TetAct) :
    (applyTetActs t acts).pivot = 0 ∧
    (applyTetActs t acts).shape = [[1, 1], [1, 1]] ∧
    (applyTetActs t acts).type = 3 := by
  induction acts generalizing t with
  | nil => exact ⟨hp, hs, h3⟩
  | cons a rest ih =>
    have hmax : pivotMaxOf t.type ≤ 0 := by rw [h3]; exact Nat.le_refl 0
    have step : (applyTetAct t a).pivot = 0 ∧
        (applyTetAct t a).shape = [[1, 1], [1, 1]] ∧ (applyTetAct t a).type = 3 := by
      cases a with
      | ml tets excl =>
        simp only [applyTetAct, moveLeft]
        rw [doesTetCollideSide]
        have h2 := sideScanGo_snd_of_budget tets excl t.type t.rotation 0
          ⟨t.topLeft.row, t.topLeft.col - 1⟩ none (cellsOfShape t.shape) hmax
        split <;> exact ⟨h2, hs, h3⟩
      | mr tets excl =>
        simp only [applyTetAct, moveRight]
        rw [doesTetCollideSide]
        have h2 := sideScanGo_snd_of_budget tets excl t.type t.rotation t.pivot
          ⟨t.topLeft.row, t.topLeft.col + 1⟩ (some 1) (cellsOfShape t.shape)
          (Nat.le_trans hmax (Nat.zero_le _))
        split <;> exact ⟨h2.trans hp, hs, h3⟩
      | md tets excl =>
        simp only [applyTetAct, moveDown]
        split <;> exact ⟨hp, hs, h3⟩
      | rt tets excl =>
        simp only [applyTetAct, rotate]
        by_cases hb : rotateBlocked tets excl t = true
        · rw [if_pos hb]
          exact ⟨hp, hs, h3⟩
        · rw [if_neg hb]
          refine ⟨rfl, ?_, h3⟩
          show getShapeMatrix t.type (rotateCand t) = [[1, 1], [1, 1]]
          rw [h3]
          exact getShapeMatrix_O _
    rw [applyTetActs, List.foldl_cons]
    exact ih (applyTetAct t a) step.2.2 step.1 step.2.1

/-- Witness for C9: a fresh O piece keeps `pivot = 0` and its shape across
a concrete right-move plus rotation sequence on an empty board. -/
theorem c9_amended_witness :
    (applyTetActs (mkTet 3) [TetAct.mr [] [], TetAct.rt [] []]).pivot = 0 ∧
    (applyTetActs (mkTet 3) [TetAct.mr [] [], TetAct.rt [] []]).shape =
      [[1, 1], [1, 1]] ∧
    (applyTetActs (mkTet 3) [TetAct.mr [] [], TetAct.rt [] []]).type = 3 :=
  c9_amended (mkTet 3) rfl rfl (by decide) [TetAct.mr [] [], TetAct.rt [] []]

/-- C9 counterexample: rotating a freshly spawned O piece on an empty board
succeeds and advances `rotation` from 0 to 1 (the O catalog row has a single
entry, so `getShapeMatrix` returns the same shape, but `rotation` is still
written).  The claim that an O piece never changes `rotationState` is
false. -/
theorem c9_counterexample :
    (mkTet 3).type = 3 ∧ (mkTet 3).rotation = 0 ∧
    (rotate [mkTet 3] [0] (mkTet 3)).1 = true ∧
    (rotate [mkTet 3] [0] (mkTet 3)).2.rotation = 1 := by decide

/-! ### C10: cleanShape -/

/-- Reading a dropped list shifts the index. -/
theorem getD_drop (l : List Nat) (n m : Nat) : (l.drop n).getD m 0 = l.getD (n + m) 0 := by
  induction n generalizing l with
  | zero => simp
  | succ k ih =>
    cases l with
    | nil => simp
    | cons a as =>
      rw [List.drop_succ_cons, ih as]
      have h : k + 1 + m = (k + m) + 1 := by omega
      rw [h]
      rfl

/-- Reading the tail of a row shifts the index by one. -/
theorem getD_tail_eq (l : List Nat) (m : Nat) : l.tail.getD m 0 = l.getD (m + 1) 0 := by
  cases l with
  | nil => rfl
  | cons a as => rfl

/-- Decomposition of the trailing-zero strip: the original row is the
stripped row followed by zeros only. -/
theorem stripTrailingZeros_append (row : List Nat) :
    ∃ zs, row = stripTrailingZeros row ++ zs ∧ ∀ v ∈ zs, v = 0 := by
  refine ⟨(row.reverse.takeWhile fun v => decide (v = 0)).reverse, ?_, ?_⟩
  · calc
      row = row.reverse.reverse := (List.reverse_reverse row).symm
      _ = ((row.reverse.takeWhile fun v => decide (v = 0)) ++
            (row.reverse.dropWhile fun v => decide (v = 0))).reverse := by
          rw [List.takeWhile_append_dropWhile]
      _ = (row.reverse.dropWhile fun v => decide (v = 0)).reverse ++
            (row.reverse.takeWhile fun v => decide (v = 0)).reverse :=
          List.reverse_append _ _
  · intro w hw
    rw [List.mem_reverse] at hw
    have h2 := List.mem_takeWhile_imp hw
    exact of_decide_eq_true h2

/-- The trailing-zero strip never changes which indices hold non-zero
entries. -/
theorem stripTrailingZeros_getD (row : List Nat) (c : Nat) :
    (stripTrailingZeros row).getD c 0 ≠ 0 ↔ row.getD c 0 ≠ 0 := by
  obtain ⟨zs, heq, hz⟩ := stripTrailingZeros_append row
  constructor
  · intro h
    have hc : c < (stripTrailingZeros row).length := by
      by_contra hc
      rw [List.getD_eq_default _ _ (Nat.le_of_not_lt hc)] at h
      exact h rfl
    rw [heq, List.getD_append _ _ _ _ hc]
    exact h
  · intro h
    rcases Nat.lt_or_ge c (stripTrailingZeros row).length with hc | hc
    · rw [heq, List.getD_append _ _ _ _ hc] at h
      exact h
    · exfalso
      rw [heq, List.getD_append_right _ _ _ _ hc] at h
      rcases Nat.lt_or_ge (c - (stripTrailingZeros row).length) zs.length with hd | hd
      · rw [List.getD_eq_getElem _ _ hd] at h
        exact h (hz _ (List.getElem_mem hd))
      · rw [List.getD_eq_default _ _ hd] at h
        exact h rfl

/-- The first element surviving a `dropWhile` fails the predicate. -/
theorem dropWhile_head_false {α : Type} {p : α → Bool} :
    ∀ (l : List α) (a : α) (as : List α), l.dropWhile p = a :: as → p a = false := by
  intro l
  induction l with
  | nil =>
    intro a as h
    cases h
  | cons x xs ih =>
    intro a as h
    rw [List.dropWhile_cons] at h
    split at h
    · exact ih a as h
    · rename_i hpx
      injection h with h1 h2
      subst h1
      cases hpb : p x with
      | false => rfl
      | true => exact absurd hpb hpx

/-- A stripped row never ends in a zero. -/
theorem stripTrailingZeros_getLast (row : List Nat) :
    (stripTrailingZeros row).getLast? ≠ some 0 := by
  rw [stripTrailingZeros, List.getLast?_reverse]
  cases hd : row.reverse.dropWhile fun v => decide (v = 0) with
  | nil => simp
  | cons a as =>
    have h := dropWhile_head_false row.reverse a as hd
    rw [List.head?_cons]
    intro hx
    exact absurd (Option.some.inj hx) (of_decide_eq_false h)

/-- A positive row head survives the trailing-zero strip. -/
theorem stripTrailingZeros_headD (row : List Nat) (h : 0 < row.headD 0) :
    (stripTrailingZeros row).headD 0 = row.headD 0 := by
  obtain ⟨zs, heq, hz⟩ := stripTrailingZeros_append row
  cases hs : stripTrailingZeros row with
  | nil =>
    exfalso
    rw [hs, List.nil_append] at heq
    rw [heq] at h
    cases zs with
    | nil => exact Nat.lt_irrefl 0 h
    | cons b bs =>
      have hb : b = 0 := hz b (by exact List.mem_cons_self b bs)
      rw [List.headD_cons, hb] at h
      exact Nat.lt_irrefl 0 h
  | cons a as =>
    conv_rhs => rw [heq, hs]
    rfl

/-- An accumulated minimum of nonempty-row lengths stays positive. -/
theorem foldl_min_pos (rs : List (List Nat)) :
    ∀ a, 1 ≤ a → (∀ row ∈ rs, row ≠ []) →
      1 ≤ rs.foldl (fun m row => min m row.length) a := by
  induction rs with
  | nil => intro a ha _; exact ha
  | cons r rest ih =>
    intro a ha h
    rw [List.foldl_cons]
    have hr : r ≠ [] := h r (List.mem_cons_self r rest)
    have hlen : 1 ≤ r.length := List.length_pos.mpr hr
    exact ih (min a r.length) (by omega) fun row hrow => h row (List.mem_cons_of_mem r hrow)

/-- Per-row tails shift the accumulated minimum down by one. -/
theorem foldl_min_tail (rs : List (List Nat)) :
    ∀ a, 1 ≤ a → (∀ row ∈ rs, row ≠ []) →
      (rs.map List.tail).foldl (fun m row => min m row.length) (a - 1) =
        rs.foldl (fun m row => min m row.length) a - 1 := by
  induction rs with
  | nil => intro a _ _; rfl
  | cons r rest ih =>
    intro a ha h
    rw [List.map_cons, List.foldl_cons, List.foldl_cons]
    have hr : r ≠ [] := h r (List.mem_cons_self r rest)
    have hlen : 1 ≤ r.length := List.length_pos.mpr hr
    have htail : r.tail.length = r.length - 1 := by
      cases r with
      | nil => exact absurd rfl hr
      | cons x xs => rfl
    rw [htail]
    have hmin : min (a - 1) (r.length - 1) = min a r.length - 1 := by omega
    rw [hmin]
    exact ih (min a r.length) (by omega) fun row hrow => h row (List.mem_cons_of_mem r hrow)

/-- A shape of nonempty rows has a positive shortest row length. -/
theorem minRowLen_pos (shape : List (List Nat)) (hne : shape ≠ [])
    (h : ∀ row ∈ shape, row ≠ []) : 1 ≤ minRowLen shape := by
  cases shape with
  | nil => exact absurd rfl hne
  | cons r rs =>
    rw [minRowLen]
    have hr : r ≠ [] := h r (List.mem_cons_self r rs)
    exact foldl_min_pos rs r.length (List.length_pos.mpr hr)
      fun row hrow => h row (List.mem_cons_of_mem r hrow)

/-- Tailing every row decreases the shortest row length by one. -/
theorem minRowLen_map_tail (shape : List (List Nat))
    (h : ∀ row ∈ shape, row ≠ []) :
    minRowLen (shape.map List.tail) = minRowLen shape - 1 := by
  cases shape with
  | nil => rfl
  | cons r rs =>
    rw [List.map_cons, minRowLen, minRowLen]
    have hr : r ≠ [] := h r (List.mem_cons_self r rs)
    have htail : r.tail.length = r.length - 1 := by
      cases r with
      | nil => exact absurd rfl hr
      | cons x xs => rfl
    rw [htail]
    exact foldl_min_tail rs r.length (List.length_pos.mpr hr)
      fun row hrow => h row (List.mem_cons_of_mem r hrow)

/-- The leading-zero-column loop exits within `minRowLen` iterations on any
shape whose every row holds a positive entry: it strips some `k ≤ minRowLen`
columns (all of whose entries are zero), bumps the anchor column by `k`, and
stops at a shape with a positive leading entry. -/
theorem stripLeadingCols_spec :
    ∀ n shape col, minRowLen shape = n → shape ≠ [] →
      (∀ row ∈ shape, ∃ v ∈ row, 0 < v) →
      ∃ k, k ≤ n ∧
        stripLeadingCols (n + 1) shape col = some (shape.map (List.drop k), col + k) ∧
        anyHeadPos (shape.map (List.drop k)) = true ∧
        ∀ row ∈ shape, ∀ j < k, row.getD j 0 = 0 := by
  intro n
  induction n with
  | zero =>
    intro shape col hmin hne hrows
    exfalso
    have hnonempty : ∀ row ∈ shape, row ≠ [] := by
      intro row hrow
      obtain ⟨v, hv, _⟩ := hrows row hrow
      exact List.ne_nil_of_mem hv
    have := minRowLen_pos shape hne hnonempty
    omega
  | succ m ih =>
    intro shape col hmin hne hrows
    by_cases hhead : anyHeadPos shape = true
    · refine ⟨0, Nat.zero_le _, ?_, ?_, ?_⟩
      · rw [stripLeadingCols, if_pos hhead]
        have hdrop : shape.map (List.drop 0) = shape := by
          rw [show (List.drop 0 : List Nat → List Nat) = id from funext fun l => List.drop_zero l]
          exact List.map_id shape
        rw [hdrop]
        norm_num
      · have hdrop : shape.map (List.drop 0) = shape := by
          rw [show (List.drop 0 : List Nat → List Nat) = id from funext fun l => List.drop_zero l]
          exact List.map_id shape
        rw [hdrop]
        exact hhead
      · intro row _ j hj
        omega
    · have hnonempty : ∀ row ∈ shape, row ≠ [] := by
        intro row hrow
        obtain ⟨v, hv, _⟩ := hrows row hrow
        exact List.ne_nil_of_mem hv
      have hheads : ∀ row ∈ shape, row.headD 0 = 0 := by
        intro row hrow
        have h2 : ¬0 < row.headD 0 := by
          intro hpos
          apply hhead
          rw [anyHeadPos, List.any_eq_true]
          exact ⟨row, hrow, decide_eq_true hpos⟩
        omega
      have htails : ∀ row2 ∈ shape.map List.tail, ∃ v ∈ row2, 0 < v := by
        intro row2 hrow2
        rw [List.mem_map] at hrow2
        obtain ⟨row, hrow, rfl⟩ := hrow2
        obtain ⟨v, hv, hvpos⟩ := hrows row hrow
        cases row with
        | nil => cases hv
        | cons a as =>
          rcases List.mem_cons.mp hv with rfl | hv2
          · have h0 := hheads (v :: as) hrow
            rw [List.headD_cons] at h0
            omega
          · exact ⟨v, hv2, hvpos⟩
      have hmapne : shape.map List.tail ≠ [] := by
        cases shape with
        | nil => exact absurd rfl hne
        | cons r rs => exact List.cons_ne_nil _ _
      have hmin2 : minRowLen (shape.map List.tail) = m := by
        have h2 := minRowLen_map_tail shape hnonempty
        omega
      obtain ⟨k, hk, heq, hhead2, hzero⟩ := ih (shape.map List.tail) (col + 1) hmin2 hmapne htails
      have hmm : (shape.map List.tail).map (List.drop k) = shape.map (List.drop (k + 1)) := by
        have hfun : (List.drop k ∘ List.tail : List Nat → List Nat) = List.drop (k + 1) := by
          funext row
          show List.drop k row.tail = List.drop (k + 1) row
          rw [← List.drop_one, List.drop_drop, Nat.add_comm]
        rw [List.map_map, hfun]
      refine ⟨k + 1, by omega, ?_, ?_, ?_⟩
      · rw [stripLeadingCols, if_neg hhead, heq, hmm]
        have hc : col + 1 + (k : Int) = col + (((k + 1 : Nat) : Int)) := by
          push_cast
          ring
        rw [hc]
      · rw [← hmm]
        exact hhead2
      · intro row hrow j hj
        cases j with
        | zero =>
          have h0 := hheads row hrow
          cases row with
          | nil => rfl
          | cons a as =>
            rw [List.headD_cons] at h0
            exact h0
        | succ j2 =>
          have hj2 : j2 < k := by omega
          have h2 := hzero row.tail (List.mem_map.mpr ⟨row, hrow, rfl⟩) j2 hj2
          rw [getD_tail_eq] at h2
          exact h2

/-- Two positions with equal components are equal. -/
theorem posExt {r1 c1 r2 c2 : Int} (h1 : r1 = r2) (h2 : c1 = c2) :
    (⟨r1, c1⟩ : Pos) = ⟨r2, c2⟩ := by
  rw [h1, h2]

/-- Characterisation of fragment cells by matrix entries. -/
theorem mem_fragCells {fr : Frag} {p : Pos} :
    p ∈ fragCells fr ↔ ∃ r c, (fr.shape.getD r []).getD c 0 ≠ 0 ∧
      p.row = fr.topLeft.row + r ∧ p.col = fr.topLeft.col + c := by
  rw [fragCells, List.mem_map]
  constructor
  · rintro ⟨⟨r, c⟩, hrc, rfl⟩
    exact ⟨r, c, mem_cellsOfShape.mp hrc, rfl, rfl⟩
  · rintro ⟨r, c, hv, hrow, hcol⟩
    refine ⟨(r, c), mem_cellsOfShape.mpr hv, ?_⟩
    have h2 : (⟨fr.topLeft.row + r, fr.topLeft.col + c⟩ : Pos) = ⟨p.row, p.col⟩ :=
      posExt hrow.symm hcol.symm
    exact h2

/-- Characterisation of piece cells by matrix entries. -/
theorem mem_tetCells {t : Tet} {p : Pos} :
    p ∈ tetCells t ↔ ∃ r c, (t.shape.getD r []).getD c 0 ≠ 0 ∧
      p.row = t.topLeft.row + r ∧ p.col = t.topLeft.col + c := by
  rw [tetCells, List.mem_map]
  constructor
  · rintro ⟨⟨r, c⟩, hrc, rfl⟩
    exact ⟨r, c, mem_cellsOfShape.mp hrc, rfl, rfl⟩
  · rintro ⟨r, c, hv, hrow, hcol⟩
    refine ⟨(r, c), mem_cellsOfShape.mpr hv, ?_⟩
    have h2 : (⟨t.topLeft.row + r, t.topLeft.col + c⟩ : Pos) = ⟨p.row, p.col⟩ :=
      posExt hrow.symm hcol.symm
    exact h2

/-- Reading a mapped list of lists under a map sending `[]` to `[]`. -/
theorem getD_map_nil {α β : Type} (f : List α → List β) (hf : f [] = [])
    (l : List (List α)) (n : Nat) : (l.map f).getD n [] = f (l.getD n []) := by
  induction l generalizing n with
  | nil => simp [hf]
  | cons x xs ih =>
    cases n with
    | zero => rfl
    | succ m => exact ih m

/-- An index holding a non-zero entry yields a positive member. -/
theorem getD_ne_zero_exists_pos (l : List Nat) (i : Nat) (h : l.getD i 0 ≠ 0) :
    ∃ v ∈ l, 0 < v := by
  have hi : i < l.length := by
    by_contra hi
    rw [List.getD_eq_default _ _ (Nat.le_of_not_lt hi)] at h
    exact h rfl
  rw [List.getD_eq_getElem _ _ hi] at h
  exact ⟨l[i], List.getElem_mem hi, Nat.pos_of_ne_zero h⟩

/-- A positive member yields an index holding it. -/
theorem exists_pos_getD (l : List Nat) (v : Nat) (hv : v ∈ l) :
    ∃ i, l.getD i 0 = v := by
  obtain ⟨i, hi, hvi⟩ := List.mem_iff_getElem.mp hv
  exact ⟨i, by rw [List.getD_eq_getElem _ _ hi, hvi]⟩

/-- The matrix entries of a cleaned shape against the stripped-column
decomposition: entry `(r, c)` of the cleaned matrix is entry `(r, k + c)` of
the matrix before trailing strip. -/
theorem cleanShape_entry (sh : List (List Nat)) (k r c : Nat) :
    (((sh.map (List.drop k)).map stripTrailingZeros).getD r []).getD c 0 ≠ 0 ↔
      (sh.getD r []).getD (k + c) 0 ≠ 0 := by
  rw [getD_map_nil stripTrailingZeros rfl, getD_map_nil (List.drop k) List.drop_nil,
    stripTrailingZeros_getD, getD_drop]

/-- `cleanShape` preserves every non-zero cell's board position. -/
theorem cleanShape_cells (fr : Frag) (hne : fr.shape ≠ [])
    (hrows : ∀ row ∈ fr.shape, ∃ v ∈ row, 0 < v) :
    ∀ p, p ∈ fragCells (cleanShape fr) ↔ p ∈ fragCells fr := by
  obtain ⟨k, hk, heq, hheadk, hzero⟩ :=
    stripLeadingCols_spec (minRowLen fr.shape) fr.shape fr.topLeft.col rfl hne hrows
  have hclean : cleanShape fr =
      ⟨(fr.shape.map (List.drop k)).map stripTrailingZeros,
        ⟨fr.topLeft.row, fr.topLeft.col + k⟩⟩ := by
    rw [cleanShape, heq]
  intro p
  rw [hclean, mem_fragCells, mem_fragCells]
  constructor
  · rintro ⟨r, c, hv, hrow, hcol⟩
    simp only at hv hrow hcol
    rw [cleanShape_entry] at hv
    refine ⟨r, k + c, hv, hrow, ?_⟩
    rw [hcol]
    push_cast
    ring
  · rintro ⟨r, c0, hv, hrow, hcol⟩
    have hrlt : r < fr.shape.length := by
      by_contra hr
      rw [List.getD_eq_default _ _ (Nat.le_of_not_lt hr), List.getD_nil] at hv
      exact hv rfl
    have hmem : fr.shape.getD r [] ∈ fr.shape := by
      rw [List.getD_eq_getElem _ _ hrlt]
      exact List.getElem_mem hrlt
    have hge : k ≤ c0 := by
      by_contra hlt
      exact hv (hzero _ hmem c0 (Nat.lt_of_not_le hlt))
    refine ⟨r, c0 - k, ?_, hrow, ?_⟩
    · simp only
      rw [cleanShape_entry]
      have h2 : k + (c0 - k) = c0 := by omega
      rw [h2]
      exact hv
    · simp only
      rw [hcol]
      have h2 : ((c0 : Int)) = (k : Int) + ((c0 - k : Nat) : Int) := by
        push_cast [hge]
        ring
      rw [h2]
      ring

/-- The shape invariants of a cleaned fragment: nonempty, no all-zero row,
a positive entry in the leading column, and no trailing zero in any row. -/
theorem cleanShape_props (fr : Frag) (hne : fr.shape ≠ [])
    (hrows : ∀ row ∈ fr.shape, ∃ v ∈ row, 0 < v) :
    (cleanShape fr).shape ≠ [] ∧
    (∀ row ∈ (cleanShape fr).shape, ∃ v ∈ row, 0 < v) ∧
    anyHeadPos (cleanShape fr).shape = true ∧
    (∀ row ∈ (cleanShape fr).shape, row.getLast? ≠ some 0) := by
  obtain ⟨k, hk, heq, hheadk, hzero⟩ :=
    stripLeadingCols_spec (minRowLen fr.shape) fr.shape fr.topLeft.col rfl hne hrows
  have hclean : cleanShape fr =
      ⟨(fr.shape.map (List.drop k)).map stripTrailingZeros,
        ⟨fr.topLeft.row, fr.topLeft.col + k⟩⟩ := by
    rw [cleanShape, heq]
  rw [hclean]
  refine ⟨?_, ?_, ?_, ?_⟩
  · intro hnil
    have h2 : fr.shape.length = 0 := by
      have h3 := congrArg List.length hnil
      simpa using h3
    exact hne (List.length_eq_zero.mp h2)
  · intro row2 hrow2
    simp only [List.map_map, List.mem_map] at hrow2
    obtain ⟨row, hrow, rfl⟩ := hrow2
    obtain ⟨v, hv, hvpos⟩ := hrows row hrow
    obtain ⟨i, hiv⟩ := exists_pos_getD row v hv
    have hik : k ≤ i := by
      by_contra hlt
      rw [hzero row hrow i (Nat.lt_of_not_le hlt)] at hiv
      omega
    have hv2 : (Function.comp stripTrailingZeros (List.drop k) row).getD (i - k) 0 ≠ 0 := by
      show (stripTrailingZeros (row.drop k)).getD (i - k) 0 ≠ 0
      rw [stripTrailingZeros_getD, getD_drop]
      have h2 : k + (i - k) = i := by omega
      rw [h2, hiv]
      omega
    exact getD_ne_zero_exists_pos _ _ hv2
  · rw [anyHeadPos, List.any_eq_true] at hheadk ⊢
    obtain ⟨row2, hmem, hpos⟩ := hheadk
    have hpos2 := of_decide_eq_true hpos
    refine ⟨stripTrailingZeros row2, List.mem_map.mpr ⟨row2, hmem, rfl⟩, ?_⟩
    rw [stripTrailingZeros_headD row2 hpos2]
    exact hpos
  · intro row2 hrow2
    simp only [List.map_map, List.mem_map] at hrow2
    obtain ⟨row, hrow, rfl⟩ := hrow2
    exact stripTrailingZeros_getLast _

/-- C10: on every shape whose rows each hold a non-zero entry (the shapes
the fragmentation step emits), the leading-column loop of `cleanShape`
terminates after `k ≤ minRowLen` strips with the anchor column bumped once
per stripped column, and the whole clean preserves every non-zero cell's
board position. -/
theorem c10_cleanShape_total (fr : Frag) (hne : fr.shape ≠ [])
    (hrows : ∀ row ∈ fr.shape, ∃ v ∈ row, 0 < v) :
    ∃ k, k ≤ minRowLen fr.shape ∧
      stripLeadingCols (minRowLen fr.shape + 1) fr.shape fr.topLeft.col =
        some (fr.shape.map (List.drop k), fr.topLeft.col + k) ∧
      (cleanShape fr).topLeft.col = fr.topLeft.col + k ∧
      (cleanShape fr).topLeft.row = fr.topLeft.row ∧
      ∀ p, p ∈ fragCells (cleanShape fr) ↔ p ∈ fragCells fr := by
  obtain ⟨k, hk, heq, hheadk, hzero⟩ :=
    stripLeadingCols_spec (minRowLen fr.shape) fr.shape fr.topLeft.col rfl hne hrows
  have hclean : cleanShape fr =
      ⟨(fr.shape.map (List.drop k)).map stripTrailingZeros,
        ⟨fr.topLeft.row, fr.topLeft.col + k⟩⟩ := by
    rw [cleanShape, heq]
  exact ⟨k, hk, heq, by rw [hclean], by rw [hclean], cleanShape_cells fr hne hrows⟩

/-- Witness for C10: a 2-row fragment with one all-zero leading column and a
trailing zero strips exactly one column. -/
theorem c10_cleanShape_total_witness :
    ∃ k, k ≤ minRowLen ([[0, 1, 0], [0, 0, 1]] : List (List Nat)) ∧
      stripLeadingCols (minRowLen ([[0, 1, 0], [0, 0, 1]] : List (List Nat)) + 1)
          [[0, 1, 0], [0, 0, 1]] 2 =
        some (([[0, 1, 0], [0, 0, 1]] : List (List Nat)).map (List.drop k),
          2 + (k : Int)) ∧
      (cleanShape ⟨[[0, 1, 0], [0, 0, 1]], ⟨5, 2⟩⟩).topLeft.col = 2 + (k : Int) ∧
      (cleanShape ⟨[[0, 1, 0], [0, 0, 1]], ⟨5, 2⟩⟩).topLeft.row = 5 ∧
      ∀ p, p ∈ fragCells (cleanShape ⟨[[0, 1, 0], [0, 0, 1]], ⟨5, 2⟩⟩) ↔
        p ∈ fragCells ⟨[[0, 1, 0], [0, 0, 1]], ⟨5, 2⟩⟩ :=
  c10_cleanShape_total ⟨[[0, 1, 0], [0, 0, 1]], ⟨5, 2⟩⟩ (by decide) (by decide)

/-! ### C4: fragmentation -/

/-- `mem_fragCells` with the constructor spelled out. -/
theorem mem_fragCells_mk {sh : List (List Nat)} {tl : Pos} {p : Pos} :
    p ∈ fragCells ⟨sh, tl⟩ ↔ ∃ r c, (sh.getD r []).getD c 0 ≠ 0 ∧
      p.row = tl.row + r ∧ p.col = tl.col + c :=
  mem_fragCells

/-- An all-zero row reads zero at every index. -/
theorem allZeros_getD (row : List Nat) (h : arrayIsAllZeros row = true) (c : Nat) :
    row.getD c 0 = 0 := by
  rcases Nat.lt_or_ge c row.length with hc | hc
  · rw [List.getD_eq_getElem _ _ hc]
    rw [arrayIsAllZeros, List.all_eq_true] at h
    have h2 := h row[c] (List.getElem_mem hc)
    simp at h2
    omega
  · exact List.getD_eq_default _ _ hc

/-- A row fails the all-zero test iff it holds a positive entry. -/
theorem arrayIsAllZeros_eq_false (row : List Nat) :
    arrayIsAllZeros row = false ↔ ∃ v ∈ row, 0 < v := by
  simp only [arrayIsAllZeros, List.all_eq_false, Bool.not_eq_true]
  constructor <;> rintro ⟨v, hv, h⟩ <;> refine ⟨v, hv, ?_⟩ <;> simp_all

/-- Appending a row to a run adds exactly that row's cells one board row
below the run. -/
theorem mem_fragCells_append_row (sh : List (List Nat)) (row : List Nat) (tl : Pos)
    (p : Pos) :
    p ∈ fragCells ⟨sh ++ [row], tl⟩ ↔
      p ∈ fragCells ⟨sh, tl⟩ ∨
        ∃ c, row.getD c 0 ≠ 0 ∧ p.row = tl.row + sh.length ∧ p.col = tl.col + c := by
  rw [mem_fragCells_mk, mem_fragCells_mk]
  constructor
  · rintro ⟨r, c, hv, hrow, hcol⟩
    rcases Nat.lt_or_ge r sh.length with hr | hr
    · rw [List.getD_append _ _ _ _ hr] at hv
      exact Or.inl ⟨r, c, hv, hrow, hcol⟩
    · rw [List.getD_append_right _ _ _ _ hr] at hv
      rcases Nat.lt_or_ge (r - sh.length) 1 with h1 | h1
      · have h2 : r = sh.length := by omega
        have h3 : r - sh.length = 0 := by omega
        rw [h3] at hv
        refine Or.inr ⟨c, hv, ?_, hcol⟩
        rw [hrow, h2]
      · have hlen : ([row] : List (List Nat)).length ≤ r - sh.length := by
          simpa using h1
        rw [List.getD_eq_default _ _ hlen, List.getD_nil] at hv
        exact absurd rfl hv
  · rintro (⟨r, c, hv, hrow, hcol⟩ | ⟨c, hv, hrow, hcol⟩)
    · have hr : r < sh.length := by
        by_contra hr2
        rw [List.getD_eq_default _ _ (Nat.le_of_not_lt hr2), List.getD_nil] at hv
        exact hv rfl
      exact ⟨r, c, by rw [List.getD_append _ _ _ _ hr]; exact hv, hrow, hcol⟩
    · refine ⟨sh.length, c, ?_, hrow, hcol⟩
      rw [List.getD_append_right _ _ _ _ (Nat.le_refl _)]
      have h3 : sh.length - sh.length = 0 := by omega
      rw [h3]
      exact hv

/-- Splitting the cells of a row list at its head. -/
theorem rowsCells_cons (row : List Nat) (rest : List (List Nat)) (origTL : Pos)
    (r : Nat) (p : Pos) :
    (∃ i c, ((row :: rest).getD i []).getD c 0 ≠ 0 ∧
        p.row = origTL.row + (r : Int) + i ∧ p.col = origTL.col + c) ↔
      ((∃ c, row.getD c 0 ≠ 0 ∧ p.row = origTL.row + (r : Int) ∧
          p.col = origTL.col + c) ∨
        ∃ i c, (rest.getD i []).getD c 0 ≠ 0 ∧
          p.row = origTL.row + ((r + 1 : Nat) : Int) + i ∧ p.col = origTL.col + c) := by
  constructor
  · rintro ⟨i, c, hv, hrow, hcol⟩
    cases i with
    | zero =>
      refine Or.inl ⟨c, hv, ?_, hcol⟩
      rw [hrow]
      push_cast
      ring
    | succ i2 =>
      refine Or.inr ⟨i2, c, hv, ?_, hcol⟩
      rw [hrow]
      push_cast
      ring
  · rintro (⟨c, hv, hrow, hcol⟩ | ⟨i, c, hv, hrow, hcol⟩)
    · exact ⟨0, c, hv, by rw [hrow]; push_cast; ring, hcol⟩
    · exact ⟨i + 1, c, hv, by rw [hrow]; push_cast; ring, hcol⟩

/-- An empty run holds no cells. -/
theorem mem_fragCells_nil (tl : Pos) (p : Pos) : p ∈ fragCells ⟨[], tl⟩ ↔ False := by
  rw [mem_fragCells_mk]
  constructor
  · rintro ⟨r, c, hv, _, _⟩
    rw [List.getD_nil, List.getD_nil] at hv
    exact hv rfl
  · exact False.elim

/-- A zero row list holds no cells. -/
theorem rowsCells_nil (origTL : Pos) (r : Nat) (p : Pos) :
    (∃ i c, (([] : List (List Nat)).getD i []).getD c 0 ≠ 0 ∧
        p.row = origTL.row + (r : Int) + i ∧ p.col = origTL.col + c) ↔ False := by
  constructor
  · rintro ⟨i, c, hv, _, _⟩
    rw [List.getD_nil, List.getD_nil] at hv
    exact hv rfl
  · exact False.elim

/-- Bounded existence over a list with one element appended. -/
theorem exists_mem_append_singleton {α : Type} (q : List α) (x : α) (P : α → Prop) :
    (∃ y ∈ q ++ [x], P y) ↔ (∃ y ∈ q, P y) ∨ P x := by
  constructor
  · rintro ⟨y, hy, hp⟩
    rcases List.mem_append.mp hy with h | h
    · exact Or.inl ⟨y, h, hp⟩
    · rw [List.mem_singleton] at h
      subst h
      exact Or.inr hp
  · rintro (⟨y, hy, hp⟩ | hp)
    · exact ⟨y, List.mem_append.mpr (Or.inl hy), hp⟩
    · exact ⟨x, List.mem_append.mpr (Or.inr (List.mem_singleton.mpr rfl)), hp⟩

/-- Every fragment the queue-builder emits is nonempty with no all-zero
row. -/
theorem updateQGo_props (origTL : Pos) :
    ∀ (rows : List (List Nat)) (r : Nat) (currShape : List (List Nat)) (tl : Pos)
      (q : List Frag),
      (∀ row ∈ currShape, arrayIsAllZeros row = false) →
      (∀ fr ∈ q, fr.shape ≠ [] ∧ ∀ row ∈ fr.shape, arrayIsAllZeros row = false) →
      ∀ fr ∈ updateQGo origTL r rows currShape tl q,
        fr.shape ≠ [] ∧ ∀ row ∈ fr.shape, arrayIsAllZeros row = false := by
  intro rows
  induction rows with
  | nil =>
    intro r currShape tl q hcurr hq fr hfr
    rw [updateQGo] at hfr
    split at hfr
    · rename_i hlen
      rcases List.mem_append.mp hfr with h | h
      · exact hq fr h
      · rw [List.mem_singleton] at h
        subst h
        exact ⟨List.length_pos.mp hlen, hcurr⟩
    · exact hq fr hfr
  | cons row rest ih =>
    intro r currShape tl q hcurr hq fr hfr
    rw [updateQGo] at hfr
    split at hfr
    · rename_i hrow
      refine ih (r + 1) (currShape ++ [row]) _ q ?_ hq fr hfr
      intro row2 h2
      rcases List.mem_append.mp h2 with h3 | h3
      · exact hcurr row2 h3
      · rw [List.mem_singleton] at h3
        subst h3
        exact hrow
    · split at hfr
      · exact ih (r + 1) currShape tl q hcurr hq fr hfr
      · rename_i hrow hne2
        refine ih (r + 1) [] tl _ (fun row2 h2 => absurd h2 (List.not_mem_nil row2))
          ?_ fr hfr
        intro fr2 h2
        rcases List.mem_append.mp h2 with h3 | h3
        · exact hq fr2 h3
        · rw [List.mem_singleton] at h3
          subst h3
          refine ⟨?_, hcurr⟩
          intro hnil
          have hnil2 : currShape = [] := hnil
          exact hne2 (by rw [hnil2]; rfl)

/-- The queue-builder's cell bookkeeping: the cells of everything it will
have emitted equal the cells of the already-closed fragments, plus the
pending run, plus the unprocessed rows placed from board row
`origTL.row + r` downwards. -/
theorem updateQGo_cells (origTL : Pos) :
    ∀ (rows : List (List Nat)) (r : Nat) (currShape : List (List Nat)) (tl : Pos)
      (q : List Frag) (p : Pos),
      tl.col = origTL.col →
      (currShape ≠ [] → tl.row + (currShape.length : Int) = origTL.row + (r : Int)) →
      ((∃ fr ∈ updateQGo origTL r rows currShape tl q, p ∈ fragCells fr) ↔
        ((∃ fr ∈ q, p ∈ fragCells fr) ∨ p ∈ fragCells ⟨currShape, tl⟩ ∨
          ∃ i c, (rows.getD i []).getD c 0 ≠ 0 ∧
            p.row = origTL.row + (r : Int) + i ∧ p.col = origTL.col + c)) := by
  intro rows
  induction rows with
  | nil =>
    intro r currShape tl q p hcol hrowinv
    rw [updateQGo, rowsCells_nil origTL r p]
    simp only [or_false]
    split
    · rename_i hlen
      rw [exists_mem_append_singleton]
    · rename_i hlen
      have hcs : currShape = [] := by
        rcases currShape with _ | ⟨a, b⟩
        · rfl
        · exact absurd (by simp) hlen
      rw [hcs, mem_fragCells_nil]
      simp only [or_false]
  | cons row rest ih =>
    intro r currShape tl q p hcol hrowinv
    rw [updateQGo, rowsCells_cons row rest origTL r p]
    split
    · rename_i hrow
      by_cases hemp : currShape.isEmpty = true
      · have hcs : currShape = [] := by
          rcases currShape with _ | ⟨a, b⟩
          · rfl
          · exact absurd hemp (by simp)
        rw [if_pos hemp]
        rw [ih (r + 1) (currShape ++ [row]) ⟨origTL.row + (r : Int), origTL.col⟩ q p rfl
          (by
            intro _
            show origTL.row + (r : Int) + ((currShape ++ [row]).length : Int) =
              origTL.row + ((r + 1 : Nat) : Int)
            rw [hcs]
            simp [add_assoc])]
        rw [mem_fragCells_append_row]
        have h1 : ((⟨origTL.row + (r : Int), origTL.col⟩ : Pos).row +
            (currShape.length : Int)) = origTL.row + (r : Int) := by
          rw [hcs]
          simp
        have h2 : (⟨origTL.row + (r : Int), origTL.col⟩ : Pos).col = origTL.col := rfl
        rw [h1, h2]
        have h3 : p ∈ fragCells ⟨currShape, ⟨origTL.row + (r : Int), origTL.col⟩⟩ ↔
            p ∈ fragCells ⟨currShape, tl⟩ := by
          rw [hcs, mem_fragCells_nil, mem_fragCells_nil]
        rw [h3]
        constructor
        · rintro (hq2 | (hc2 | hh) | hrest)
          · exact Or.inl hq2
          · exact Or.inr (Or.inl hc2)
          · exact Or.inr (Or.inr (Or.inl hh))
          · exact Or.inr (Or.inr (Or.inr hrest))
        · rintro (hq2 | hc2 | hh | hrest)
          · exact Or.inl hq2
          · exact Or.inr (Or.inl (Or.inl hc2))
          · exact Or.inr (Or.inl (Or.inr hh))
          · exact Or.inr (Or.inr hrest)
      · rw [if_neg hemp]
        have hcs : currShape ≠ [] := by
          intro h2
          exact hemp (by rw [h2]; rfl)
        have hrow2 := hrowinv hcs
        rw [ih (r + 1) (currShape ++ [row]) tl q p hcol
          (by
            intro _
            show tl.row + ((currShape ++ [row]).length : Int) =
              origTL.row + ((r + 1 : Nat) : Int)
            rw [List.length_append, List.length_singleton]
            push_cast
            omega)]
        rw [mem_fragCells_append_row, hrow2, hcol]
        constructor
        · rintro (hq2 | (hc2 | hh) | hrest)
          · exact Or.inl hq2
          · exact Or.inr (Or.inl hc2)
          · exact Or.inr (Or.inr (Or.inl hh))
          · exact Or.inr (Or.inr (Or.inr hrest))
        · rintro (hq2 | hc2 | hh | hrest)
          · exact Or.inl hq2
          · exact Or.inr (Or.inl (Or.inl hc2))
          · exact Or.inr (Or.inl (Or.inr hh))
          · exact Or.inr (Or.inr hrest)
    · rename_i hrow
      have hz : arrayIsAllZeros row = true := by
        cases h2 : arrayIsAllZeros row with
        | false => exact absurd h2 hrow
        | true => rfl
      have hhead : ¬∃ c, row.getD c 0 ≠ 0 ∧ p.row = origTL.row + (r : Int) ∧
          p.col = origTL.col + c := by
        rintro ⟨c, hv, _, _⟩
        exact hv (allZeros_getD row hz c)
      split
      · rename_i hemp
        have hcs : currShape = [] := by
          rcases currShape with _ | ⟨a, b⟩
          · rfl
          · exact absurd hemp (by simp)
        rw [ih (r + 1) currShape tl q p hcol (fun h2 => absurd hcs h2)]
        have h4 : p.row = origTL.row + (r : Int) → p.row = origTL.row + (r : Int) := id
        constructor
        · rintro (hq2 | hc2 | hrest)
          · exact Or.inl hq2
          · exact Or.inr (Or.inl hc2)
          · exact Or.inr (Or.inr (Or.inr hrest))
        · rintro (hq2 | hc2 | hh | hrest)
          · exact Or.inl hq2
          · exact Or.inr (Or.inl hc2)
          · exact absurd hh hhead
          · exact Or.inr (Or.inr hrest)
      · rename_i hemp
        have hih := ih (r + 1) [] tl (q ++ [(⟨currShape, tl⟩ : Frag)]) p hcol
          (fun h2 => absurd rfl h2)
        rw [hih, exists_mem_append_singleton, mem_fragCells_nil]
        constructor
        · rintro ((hq2 | hc2) | hF | hrest)
          · exact Or.inl hq2
          · exact Or.inr (Or.inl hc2)
          · exact False.elim hF
          · exact Or.inr (Or.inr (Or.inr hrest))
        · rintro (hq2 | hc2 | hh | hrest)
          · exact Or.inl (Or.inl hq2)
          · exact Or.inl (Or.inr hc2)
          · exact absurd hh hhead
          · exact Or.inr (Or.inr hrest)

/-- Cells of the whole fragment queue are exactly the cells of the piece. -/
theorem updateQ_cells (t : Tet) (p : Pos) :
    (∃ fr ∈ updateQ t, p ∈ fragCells fr) ↔ p ∈ tetCells t := by
  rw [updateQ]
  rw [updateQGo_cells t.topLeft t.shape 0 [] t.topLeft [] p rfl
    (fun h => absurd rfl h)]
  rw [mem_fragCells_nil, mem_tetCells]
  constructor
  · rintro (⟨fr, hfr, _⟩ | hF | ⟨i, c, hv, hrow, hcol⟩)
    · exact absurd hfr (List.not_mem_nil fr)
    · exact False.elim hF
    · exact ⟨i, c, hv, by rw [hrow]; push_cast; ring, hcol⟩
  · rintro ⟨r, c, hv, hrow, hcol⟩
    exact Or.inr (Or.inr ⟨r, c, hv, by rw [hrow]; push_cast; ring, hcol⟩)

/-- Every fragment of the queue of a piece is nonempty with a positive
entry in every row. -/
theorem updateQ_props (t : Tet) :
    ∀ fr ∈ updateQ t, fr.shape ≠ [] ∧ ∀ row ∈ fr.shape, ∃ v ∈ row, 0 < v := by
  intro fr hfr
  have h := updateQGo_props t.topLeft t.shape 0 [] t.topLeft []
    (fun row h2 => absurd h2 (List.not_mem_nil row))
    (fun fr2 h2 => absurd h2 (List.not_mem_nil fr2)) fr hfr
  exact ⟨h.1, fun row hrow => (arrayIsAllZeros_eq_false row).mp (h.2 row hrow)⟩

/-- The board cells of a piece equal those of its shape and anchor viewed as
a fragment. -/
theorem tetCells_eq_fragCells (t : Tet) (fr : Frag) (hs : t.shape = fr.shape)
    (ht : t.topLeft = fr.topLeft) : tetCells t = fragCells fr := by
  rw [tetCells, fragCells, hs, ht]

/-- C4 (amended): when the fragment queue holds `k > 1` runs, the first
cleaned run updates the original piece in place (all identity fields kept),
and every further cleaned run becomes a new appended piece — built by the
fragment constructor `new Tet(game, -1)` but then carrying the ORIGINAL
piece's `type` (not a fragment sentinel) — each with a nonempty shape, no
all-zero row, a positive entry in the leading column and no trailing zeros,
and with the union of all resulting cells exactly the original cells (so
every anchor is placed in the original board frame). -/
theorem c4_fragment_amended (t : Tet) (hk : 1 < (updateQ t).length) :
    ∃ rep news, updateTet t = (some rep, news) ∧
      news.length = (updateQ t).length - 1 ∧
      rep.type = t.type ∧ rep.rotation = t.rotation ∧ rep.pivot = t.pivot ∧
      (∀ nt ∈ news, nt.type = t.type ∧ nt.rotation = 0 ∧ nt.pivot = 0) ∧
      (∀ nt ∈ rep :: news,
        nt.shape ≠ [] ∧ (∀ row ∈ nt.shape, ∃ v ∈ row, 0 < v) ∧
        anyHeadPos nt.shape = true ∧ ∀ row ∈ nt.shape, row.getLast? ≠ some 0) ∧
      ∀ p, (p ∈ tetCells rep ∨ ∃ nt ∈ news, p ∈ tetCells nt) ↔ p ∈ tetCells t := by
  rcases hq : updateQ t with _ | ⟨first, rest⟩
  · rw [hq] at hk
    simp at hk
  · have hfirst : first ∈ updateQ t := by
      rw [hq]
      exact List.mem_cons_self first rest
    have hrest : ∀ fr ∈ rest, fr ∈ updateQ t := by
      intro fr hfr
      rw [hq]
      exact List.mem_cons_of_mem first hfr
    have hup : updateTet t =
        (some { t with topLeft := (cleanShape first).topLeft,
                       shape := (cleanShape first).shape },
          rest.map fun fr =>
            { type := t.type, rotation := 0, pivot := 0,
              topLeft := (cleanShape fr).topLeft, shape := (cleanShape fr).shape }) := by
      rw [updateTet, hq]
    refine ⟨_, _, hup, ?_, rfl, rfl, rfl, ?_, ?_, ?_⟩
    · rw [List.length_map, List.length_cons]
      omega
    · intro nt hnt
      rw [List.mem_map] at hnt
      obtain ⟨fr, hfr, rfl⟩ := hnt
      exact ⟨rfl, rfl, rfl⟩
    · intro nt hnt
      rcases List.mem_cons.mp hnt with rfl | hnt2
      · have hp := updateQ_props t first hfirst
        have hc := cleanShape_props first hp.1 hp.2
        exact hc
      · rw [List.mem_map] at hnt2
        obtain ⟨fr, hfr, rfl⟩ := hnt2
        have hp := updateQ_props t fr (hrest fr hfr)
        exact cleanShape_props fr hp.1 hp.2
    · intro p
      have hrep : tetCells { t with topLeft := (cleanShape first).topLeft,
                                    shape := (cleanShape first).shape } =
          fragCells (cleanShape first) :=
        tetCells_eq_fragCells _ _ rfl rfl
      have hnews : (∃ nt ∈ rest.map fun fr =>
          { type := t.type, rotation := 0, pivot := 0,
            topLeft := (cleanShape fr).topLeft, shape := (cleanShape fr).shape },
          p ∈ tetCells nt) ↔ ∃ fr ∈ rest, p ∈ fragCells (cleanShape fr) := by
        constructor
        · rintro ⟨nt, hnt, hp⟩
          rw [List.mem_map] at hnt
          obtain ⟨fr, hfr, rfl⟩ := hnt
          rw [tetCells_eq_fragCells _ (cleanShape fr) rfl rfl] at hp
          exact ⟨fr, hfr, hp⟩
        · rintro ⟨fr, hfr, hp⟩
          refine ⟨_, List.mem_map.mpr ⟨fr, hfr, rfl⟩, ?_⟩
          rw [tetCells_eq_fragCells _ (cleanShape fr) rfl rfl]
          exact hp
      rw [hrep, hnews]
      have hfc : ∀ fr ∈ updateQ t, ∀ pp : Pos,
          pp ∈ fragCells (cleanShape fr) ↔ pp ∈ fragCells fr := by
        intro fr hfr pp
        have hp := updateQ_props t fr hfr
        exact cleanShape_cells fr hp.1 hp.2 pp
      rw [hfc first hfirst p]
      have hrest2 : (∃ fr ∈ rest, p ∈ fragCells (cleanShape fr)) ↔
          ∃ fr ∈ rest, p ∈ fragCells fr := by
        constructor
        · rintro ⟨fr, hfr, hp⟩
          exact ⟨fr, hfr, (hfc fr (hrest fr hfr) p).mp hp⟩
        · rintro ⟨fr, hfr, hp⟩
          exact ⟨fr, hfr, (hfc fr (hrest fr hfr) p).mpr hp⟩
      rw [hrest2]
      rw [← updateQ_cells t p, hq]
      constructor
      · rintro (hp | ⟨fr, hfr, hp⟩)
        · exact ⟨first, List.mem_cons_self first rest, hp⟩
        · exact ⟨fr, List.mem_cons_of_mem first hfr, hp⟩
      · rintro ⟨fr, hfr, hp⟩
        rcases List.mem_cons.mp hfr with rfl | hfr2
        · exact Or.inl hp
        · exact Or.inr ⟨fr, hfr2, hp⟩

/-- C4 counterexample: the sliced vertical I piece `slicedTet` (third row
zeroed by a clear) splits into two fragments, and the appended second piece
carries `type = 0` — the original I type, assigned by `newTet.type =
this.type` right after the `new Tet(game, -1)` fragment constructor — not
the fragment sentinel `-1`.  The claim that each additional fragment is a
piece of the "fragment" kind is therefore false. -/
theorem c4_fragment_kind_counterexample :
    (updateQ slicedTet).length = 2 ∧ slicedTet.type = 0 ∧
    (updateTet slicedTet).2.map Tet.type = [0] ∧
    (updateTet slicedTet).2.map Tet.type ≠ [-1] := by decide

/-- Witness for C4: the sliced vertical I piece splits into an in-place
updated piece (board rows 12-13) and one appended piece (board row 15). -/
theorem c4_fragment_amended_witness :
    ∃ rep news, updateTet slicedTet = (some rep, news) ∧
      news.length = (updateQ slicedTet).length - 1 ∧
      rep.type = slicedTet.type ∧ rep.rotation = slicedTet.rotation ∧
      rep.pivot = slicedTet.pivot ∧
      (∀ nt ∈ news, nt.type = slicedTet.type ∧ nt.rotation = 0 ∧ nt.pivot = 0) ∧
      (∀ nt ∈ rep :: news,
        nt.shape ≠ [] ∧ (∀ row ∈ nt.shape, ∃ v ∈ row, 0 < v) ∧
        anyHeadPos nt.shape = true ∧ ∀ row ∈ nt.shape, row.getLast? ≠ some 0) ∧
      ∀ p, (p ∈ tetCells rep ∨ ∃ nt ∈ news, p ∈ tetCells nt) ↔
        p ∈ tetCells slicedTet :=
  c4_fragment_amended slicedTet (by decide)

/-! ### C7: settling -/

/-- Reading a list after an in-range update. -/
theorem get?_set_lemma {α : Type} (l : List α) (i j : Nat) (a : α) :
    (l.set i a).get? j = if i = j ∧ i < l.length then some a else l.get? j := by
  induction l generalizing i j with
  | nil =>
    simp
  | cons x xs ih =>
    cases i with
    | zero =>
      cases j with
      | zero => simp
      | succ j2 => simp
    | succ i2 =>
      cases j with
      | zero => simp
      | succ j2 =>
        rw [List.set_cons_succ, List.get?_cons_succ, List.get?_cons_succ, ih i2 j2,
          List.length_cons]
        by_cases hij : i2 = j2 ∧ i2 < xs.length
        · rw [if_pos hij,
            if_pos (show i2 + 1 = j2 + 1 ∧ i2 + 1 < xs.length + 1 by omega)]
        · rw [if_neg hij,
            if_neg (show ¬(i2 + 1 = j2 + 1 ∧ i2 + 1 < xs.length + 1) by omega)]

/-- A duplicate-free list of naturals below `n` has at most `n` elements. -/
theorem nodup_bounded_length (l : List Nat) (n : Nat) (h1 : l.Nodup)
    (h2 : ∀ x ∈ l, x < n) : l.length ≤ n := by
  have h3 : l.toFinset ⊆ Finset.range n := by
    intro x hx
    rw [List.mem_toFinset] at hx
    exact Finset.mem_range.mpr (h2 x hx)
  have h4 := Finset.card_le_card h3
  rw [Finset.card_range] at h4
  rw [← List.toFinset_card_of_nodup h1]
  exact h4

/-- The `tetsMoved` flag of a settling pass never resets. -/
theorem settlePassGo_moved_mono (cur : Option Nat) (ntf : Bool) :
    ∀ (l : List Nat) (tets : List Tet) (mv : List Nat),
      (settlePassGo cur ntf l tets mv true).2.2 = true := by
  intro l
  induction l with
  | nil =>
    intro tets mv
    rfl
  | cons i rest ih =>
    intro tets mv
    rw [settlePassGo]
    split
    · exact ih _ _
    · split
      · exact ih _ _
      · split
        · exact ih _ _
        · exact ih _ _

/-- A settling pass that reports no movement changed nothing, and every
index it visited was skipped, absent, or bottom-blocked. -/
theorem settlePassGo_no_move (cur : Option Nat) (ntf : Bool) :
    ∀ (l : List Nat) (tets : List Tet) (mv : List Nat),
      (settlePassGo cur ntf l tets mv false).2.2 = false →
      settlePassGo cur ntf l tets mv false = (tets, mv, false) ∧
      ∀ i ∈ l, (i ∈ mv ∨ (cur = some i ∧ ntf = false)) ∨ tets.get? i = none ∨
        ∀ t, tets.get? i = some t →
          doesTetCollideBot tets (i :: cur.toList) t.shape
            ⟨t.topLeft.row + 1, t.topLeft.col⟩ = true := by
  intro l
  induction l with
  | nil =>
    intro tets mv _
    exact ⟨rfl, fun i hi => absurd hi (List.not_mem_nil i)⟩
  | cons i rest ih =>
    intro tets mv
    rw [settlePassGo]
    split
    · rename_i hskip
      intro hmoved
      obtain ⟨he, hall⟩ := ih tets mv hmoved
      refine ⟨he, ?_⟩
      intro i2 hi2
      rcases List.mem_cons.mp hi2 with rfl | hi3
      · exact Or.inl hskip
      · exact hall i2 hi3
    · rename_i hskip
      split
      · rename_i htg
        intro hmoved
        obtain ⟨he, hall⟩ := ih tets mv hmoved
        refine ⟨he, ?_⟩
        intro i2 hi2
        rcases List.mem_cons.mp hi2 with rfl | hi3
        · exact Or.inr (Or.inl htg)
        · exact hall i2 hi3
      · rename_i t htg
        split
        · rename_i hblocked
          intro hmoved
          obtain ⟨he, hall⟩ := ih tets mv hmoved
          refine ⟨he, ?_⟩
          intro i2 hi2
          rcases List.mem_cons.mp hi2 with rfl | hi3
          · refine Or.inr (Or.inr ?_)
            intro t2 ht2
            rw [htg] at ht2
            cases Option.some.inj ht2
            exact hblocked
          · exact hall i2 hi3
        · intro hmoved
          exact absurd (settlePassGo_moved_mono cur ntf rest _ _)
            (by rw [hmoved]; simp)

/-- A settling pass keeps the list length and every piece's shape. -/
theorem settlePassGo_shapes (cur : Option Nat) (ntf : Bool) :
    ∀ (l : List Nat) (tets : List Tet) (mv : List Nat) (b : Bool),
      (settlePassGo cur ntf l tets mv b).1.length = tets.length ∧
      ∀ j, ((settlePassGo cur ntf l tets mv b).1.get? j).map Tet.shape =
        (tets.get? j).map Tet.shape := by
  intro l
  induction l with
  | nil =>
    intro tets mv b
    exact ⟨rfl, fun j => rfl⟩
  | cons i rest ih =>
    intro tets mv b
    rw [settlePassGo]
    split
    · exact ih tets mv b
    · split
      · exact ih tets mv b
      · rename_i t htg
        split
        · exact ih tets mv b
        · set t2 : Tet := { t with topLeft := ⟨t.topLeft.row + 1, t.topLeft.col⟩ }
          obtain ⟨hlen, hsh⟩ := ih (tets.set i t2) (mv ++ [i]) true
          have hlen2 : (tets.set i t2).length = tets.length := by simp
          refine ⟨by rw [hlen, hlen2], ?_⟩
          intro j
          rw [hsh j, get?_set_lemma]
          split
          · rename_i hij
            rw [← hij.1, htg]
            rfl
          · rfl

/-- A settling pass only appends to the moved list; when it starts clean and
reports movement, the moved list strictly grows with fresh in-range
indices. -/
theorem settlePassGo_mv (cur : Option Nat) (ntf : Bool) :
    ∀ (l : List Nat) (tets : List Tet) (mv : List Nat) (b : Bool),
      (∃ delta, (settlePassGo cur ntf l tets mv b).2.1 = mv ++ delta) ∧
      (mv.Nodup → (∀ x ∈ mv, x < tets.length) →
        ((settlePassGo cur ntf l tets mv b).2.1.Nodup ∧
          (∀ x ∈ (settlePassGo cur ntf l tets mv b).2.1, x < tets.length) ∧
          (b = false → (settlePassGo cur ntf l tets mv b).2.2 = true →
            mv.length < (settlePassGo cur ntf l tets mv b).2.1.length))) := by
  intro l
  induction l with
  | nil =>
    intro tets mv b
    refine ⟨⟨[], by simp [settlePassGo]⟩, ?_⟩
    intro h1 h2
    refine ⟨h1, h2, ?_⟩
    intro hb hmv
    rw [hb] at hmv
    cases hmv
  | cons i rest ih =>
    intro tets mv b
    rw [settlePassGo]
    split
    · exact ih tets mv b
    · rename_i hskip
      split
      · exact ih tets mv b
      · rename_i t htg
        split
        · exact ih tets mv b
        · set t2 : Tet := { t with topLeft := ⟨t.topLeft.row + 1, t.topLeft.col⟩ }
          have hlen2 : (tets.set i t2).length = tets.length := by simp
          have hnotmv : i ∉ mv := fun h2 => hskip (Or.inl h2)
          have hilt : i < tets.length := by
            obtain ⟨h2, _⟩ := List.get?_eq_some.mp htg
            exact h2
          obtain ⟨⟨delta, hdelta⟩, hprops⟩ := ih (tets.set i t2) (mv ++ [i]) true
          refine ⟨⟨i :: delta, by rw [hdelta]; simp⟩, ?_⟩
          intro h1 h2
          have hmv2 : (mv ++ [i]).Nodup := by simp [List.nodup_append, h1, hnotmv]
          have hbound2 : ∀ x ∈ mv ++ [i], x < (tets.set i t2).length := by
            intro x hx
            rw [hlen2]
            rcases List.mem_append.mp hx with hx2 | hx2
            · exact h2 x hx2
            · rw [List.mem_singleton] at hx2
              subst hx2
              exact hilt
          obtain ⟨hn, hb, _⟩ := hprops hmv2 hbound2
          refine ⟨hn, fun x hx => hlen2 ▸ hb x hx, ?_⟩
          intro _ _
          rw [hdelta]
          simp

/-- Measure bookkeeping for a single update. -/
theorem settleMeasure_cons (t : Tet) (ts : List Tet) :
    settleMeasure (t :: ts) = (16 - t.topLeft.row).toNat + settleMeasure ts := by
  rw [settleMeasure, settleMeasure, List.map_cons, List.sum_cons]

/-- Replacing a piece exchanges exactly its own contribution to the
measure. -/
theorem settleMeasure_set (tets : List Tet) :
    ∀ (i : Nat) (t t2 : Tet), tets.get? i = some t →
      settleMeasure (tets.set i t2) + (16 - t.topLeft.row).toNat =
        settleMeasure tets + (16 - t2.topLeft.row).toNat := by
  induction tets with
  | nil =>
    intro i t t2 ht
    cases ht
  | cons x xs ih =>
    intro i t t2 ht
    cases i with
    | zero =>
      rw [List.get?_cons_zero] at ht
      cases Option.some.inj ht
      rw [List.set_cons_zero, settleMeasure_cons, settleMeasure_cons]
      omega
    | succ i2 =>
      rw [List.get?_cons_succ] at ht
      rw [List.set_cons_succ, settleMeasure_cons, settleMeasure_cons]
      have h2 := ih i2 t t2 ht
      omega

/-- A settling pass never increases the measure, and strictly decreases it
when it moves a piece, provided every piece has at least one cell. -/
theorem settlePassGo_measure (cur : Option Nat) (ntf : Bool) :
    ∀ (l : List Nat) (tets : List Tet) (mv : List Nat) (b : Bool),
      (∀ j t, tets.get? j = some t → cellsOfShape t.shape ≠ []) →
      settleMeasure (settlePassGo cur ntf l tets mv b).1 ≤ settleMeasure tets ∧
      (b = false → (settlePassGo cur ntf l tets mv b).2.2 = true →
        settleMeasure (settlePassGo cur ntf l tets mv b).1 < settleMeasure tets) := by
  intro l
  induction l with
  | nil =>
    intro tets mv b _
    refine ⟨Nat.le_refl _, ?_⟩
    intro hb hmv
    rw [hb] at hmv
    cases hmv
  | cons i rest ih =>
    intro tets mv b hcells
    rw [settlePassGo]
    split
    · exact ih tets mv b hcells
    · split
      · exact ih tets mv b hcells
      · rename_i t htg
        split
        · exact ih tets mv b hcells
        · rename_i hnb
          set t2 : Tet := { t with topLeft := ⟨t.topLeft.row + 1, t.topLeft.col⟩ }
          have hrow : t.topLeft.row + 1 + 0 ≤ 15 := by
            obtain ⟨rc, hrc⟩ := List.exists_mem_of_ne_nil _ (hcells i t htg)
            rw [Bool.not_eq_true] at hnb
            rw [doesTetCollideBot, List.any_eq_false] at hnb
            have h3 := hnb rc hrc
            simp only [Bool.or_eq_true, decide_eq_true_eq, not_or] at h3
            have h4 := h3.1
            omega
          have hmeq := settleMeasure_set tets i t t2 htg
          have hterm : (16 - t2.topLeft.row).toNat + 1 = (16 - t.topLeft.row).toNat := by
            show (16 - (t.topLeft.row + 1)).toNat + 1 = (16 - t.topLeft.row).toNat
            omega
          have hdec : settleMeasure (tets.set i t2) + 1 = settleMeasure tets := by
            omega
          have hcells2 : ∀ j tj, (tets.set i t2).get? j = some tj →
              cellsOfShape tj.shape ≠ [] := by
            intro j tj htj
            rw [get?_set_lemma] at htj
            split at htj
            · rename_i hij
              cases Option.some.inj htj
              exact hcells i t htg
            · exact hcells j tj htj
          obtain ⟨hle, _⟩ := ih (tets.set i t2) (mv ++ [i]) true hcells2
          refine ⟨by omega, ?_⟩
          intro _ _
          omega

/-- Pointwise shape preservation transports the everybody-has-a-cell
hypothesis. -/
theorem cellsHyp_preserved (tets tets2 : List Tet)
    (h : ∀ j, (tets2.get? j).map Tet.shape = (tets.get? j).map Tet.shape)
    (hyp : ∀ j t, tets.get? j = some t → cellsOfShape t.shape ≠ []) :
    ∀ j t, tets2.get? j = some t → cellsOfShape t.shape ≠ [] := by
  intro j t ht
  have h2 := h j
  rw [ht] at h2
  cases htg : tets.get? j with
  | none =>
    rw [htg] at h2
    have h3 : some t.shape = (none : Option (List (List Nat))) := h2
    cases h3
  | some t3 =>
    rw [htg] at h2
    have h3 : some t.shape = some t3.shape := h2
    rw [Option.some.injEq] at h3
    rw [h3]
    exact hyp j t3 htg

/-- The inner `while (tetsMoved)` loop reaches a pass fixed point: with
enough fuel, one more pass over the pair it returns changes nothing and
reports no movement. -/
theorem settleTickGo_fix (cur : Option Nat) (ntf : Bool) :
    ∀ (fuel : Nat) (tets : List Tet) (mv : List Nat),
      mv.Nodup → (∀ x ∈ mv, x < tets.length) →
      tets.length + 1 ≤ fuel + mv.length →
      settlePass cur ntf (settleTickGo cur ntf fuel tets mv).1
          (settleTickGo cur ntf fuel tets mv).2 =
        ((settleTickGo cur ntf fuel tets mv).1,
          (settleTickGo cur ntf fuel tets mv).2, false) := by
  intro fuel
  induction fuel with
  | zero =>
    intro tets mv h1 h2 h3
    exfalso
    have h4 := nodup_bounded_length mv tets.length h1 h2
    omega
  | succ f ih =>
    intro tets mv h1 h2 h3
    rw [settleTickGo]
    by_cases hmoved : (settlePass cur ntf tets mv).2.2 = true
    · rw [if_pos hmoved]
      obtain ⟨⟨delta, hdelta⟩, hprops⟩ :=
        settlePassGo_mv cur ntf (List.range tets.length) tets mv false
      obtain ⟨hn, hb, hgrow⟩ := hprops h1 h2
      have hgl : mv.length < (settlePass cur ntf tets mv).2.1.length :=
        hgrow rfl hmoved
      obtain ⟨hlen, _⟩ :=
        settlePassGo_shapes cur ntf (List.range tets.length) tets mv false
      have hlen2 : (settlePass cur ntf tets mv).1.length = tets.length := hlen
      apply ih (settlePass cur ntf tets mv).1 (settlePass cur ntf tets mv).2.1
      · exact hn
      · intro x hx
        have h5 := hb x hx
        omega
      · omega
    · rw [if_neg hmoved]
      have hfalse : (settlePass cur ntf tets mv).2.2 = false := by
        rw [Bool.not_eq_true] at hmoved
        exact hmoved
      obtain ⟨he, _⟩ :=
        settlePassGo_no_move cur ntf (List.range tets.length) tets mv hfalse
      have he2 : settlePass cur ntf tets mv = (tets, mv, false) := he
      rw [he2]
      exact he2

/-- The inner loop only appends to the moved list. -/
theorem settleTickGo_mv_prefix (cur : Option Nat) (ntf : Bool) :
    ∀ (fuel : Nat) (tets : List Tet) (mv : List Nat),
      ∃ delta, (settleTickGo cur ntf fuel tets mv).2 = mv ++ delta := by
  intro fuel
  induction fuel with
  | zero =>
    intro tets mv
    exact ⟨[], by simp [settleTickGo]⟩
  | succ f ih =>
    intro tets mv
    rw [settleTickGo]
    by_cases hmoved : (settlePass cur ntf tets mv).2.2 = true
    · rw [if_pos hmoved]
      obtain ⟨⟨d1, hd1⟩, _⟩ :=
        settlePassGo_mv cur ntf (List.range tets.length) tets mv false
      obtain ⟨d2, hd2⟩ :=
        ih (settlePass cur ntf tets mv).1 (settlePass cur ntf tets mv).2.1
      refine ⟨d1 ++ d2, ?_⟩
      have hd1b : (settlePass cur ntf tets mv).2.1 = mv ++ d1 := hd1
      rw [hd2, hd1b, List.append_assoc]
    · rw [if_neg hmoved]
      obtain ⟨⟨d1, hd1⟩, _⟩ :=
        settlePassGo_mv cur ntf (List.range tets.length) tets mv false
      exact ⟨d1, hd1⟩

/-- The inner loop keeps the list length and every piece's shape. -/
theorem settleTickGo_shapes (cur : Option Nat) (ntf : Bool) :
    ∀ (fuel : Nat) (tets : List Tet) (mv : List Nat),
      (settleTickGo cur ntf fuel tets mv).1.length = tets.length ∧
      ∀ j, ((settleTickGo cur ntf fuel tets mv).1.get? j).map Tet.shape =
        (tets.get? j).map Tet.shape := by
  intro fuel
  induction fuel with
  | zero =>
    intro tets mv
    exact ⟨rfl, fun j => rfl⟩
  | succ f ih =>
    intro tets mv
    rw [settleTickGo]
    by_cases hmoved : (settlePass cur ntf tets mv).2.2 = true
    · rw [if_pos hmoved]
      obtain ⟨hl1, hs1⟩ :=
        settlePassGo_shapes cur ntf (List.range tets.length) tets mv false
      obtain ⟨hl2, hs2⟩ :=
        ih (settlePass cur ntf tets mv).1 (settlePass cur ntf tets mv).2.1
      have hl1b : (settlePass cur ntf tets mv).1.length = tets.length := hl1
      refine ⟨by rw [hl2, hl1b], ?_⟩
      intro j
      have hs1b : ((settlePass cur ntf tets mv).1.get? j).map Tet.shape =
          (tets.get? j).map Tet.shape := hs1 j
      rw [hs2 j, hs1b]
    · rw [if_neg hmoved]
      exact settlePassGo_shapes cur ntf (List.range tets.length) tets mv false

/-- The inner loop never increases the measure (when every piece has a
cell). -/
theorem settleTickGo_measure (cur : Option Nat) (ntf : Bool) :
    ∀ (fuel : Nat) (tets : List Tet) (mv : List Nat),
      (∀ j t, tets.get? j = some t → cellsOfShape t.shape ≠ []) →
      settleMeasure (settleTickGo cur ntf fuel tets mv).1 ≤ settleMeasure tets := by
  intro fuel
  induction fuel with
  | zero =>
    intro tets mv _
    exact Nat.le_refl _
  | succ f ih =>
    intro tets mv hcells
    rw [settleTickGo]
    by_cases hmoved : (settlePass cur ntf tets mv).2.2 = true
    · rw [if_pos hmoved]
      obtain ⟨hle, _⟩ :=
        settlePassGo_measure cur ntf (List.range tets.length) tets mv false hcells
      have hle2 : settleMeasure (settlePass cur ntf tets mv).1 ≤ settleMeasure tets :=
        hle
      obtain ⟨_, hs1⟩ :=
        settlePassGo_shapes cur ntf (List.range tets.length) tets mv false
      have hcells2 :=
        cellsHyp_preserved tets (settlePass cur ntf tets mv).1 hs1 hcells
      have h2 :=
        ih (settlePass cur ntf tets mv).1 (settlePass cur ntf tets mv).2.1 hcells2
      omega
    · rw [if_neg hmoved]
      obtain ⟨hle, _⟩ :=
        settlePassGo_measure cur ntf (List.range tets.length) tets mv false hcells
      exact hle

/-- If the inner loop adds nothing to the moved list it leaves the pieces
unchanged. -/
theorem settleTickGo_no_new (cur : Option Nat) (ntf : Bool) :
    ∀ (fuel : Nat) (tets : List Tet) (mv : List Nat),
      mv.Nodup → (∀ x ∈ mv, x < tets.length) →
      (settleTickGo cur ntf fuel tets mv).2 = mv →
      (settleTickGo cur ntf fuel tets mv).1 = tets := by
  intro fuel
  induction fuel with
  | zero =>
    intro tets mv _ _ _
    rfl
  | succ f ih =>
    intro tets mv h1 h2
    rw [settleTickGo]
    by_cases hmoved : (settlePass cur ntf tets mv).2.2 = true
    · rw [if_pos hmoved]
      intro hout
      exfalso
      obtain ⟨_, hprops⟩ :=
        settlePassGo_mv cur ntf (List.range tets.length) tets mv false
      obtain ⟨_, _, hgrow⟩ := hprops h1 h2
      have hgl : mv.length < (settlePass cur ntf tets mv).2.1.length :=
        hgrow rfl hmoved
      obtain ⟨d2, hd2⟩ := settleTickGo_mv_prefix cur ntf f
        (settlePass cur ntf tets mv).1 (settlePass cur ntf tets mv).2.1
      rw [hd2] at hout
      have hlen := congrArg List.length hout
      rw [List.length_append] at hlen
      omega
    · rw [if_neg hmoved]
      intro _
      have hfalse : (settlePass cur ntf tets mv).2.2 = false := by
        rw [Bool.not_eq_true] at hmoved
        exact hmoved
      obtain ⟨he, _⟩ :=
        settlePassGo_no_move cur ntf (List.range tets.length) tets mv hfalse
      have he2 : settlePass cur ntf tets mv = (tets, mv, false) := he
      rw [he2]

/-- A settling round that reports no movement leaves the pieces unchanged
and sits at a pass fixed point. -/
theorem settleTick_false (cur : Option Nat) (ntf : Bool) (tets : List Tet)
    (h : (settleTick cur ntf tets).2 = false) :
    (settleTick cur ntf tets).1 = tets ∧
    settlePass cur ntf tets [] = (tets, [], false) := by
  have h2 : (!(settleTickGo cur ntf (tets.length + 1) tets []).2.isEmpty) = false := h
  have hmv : (settleTickGo cur ntf (tets.length + 1) tets []).2 = [] := by
    cases hl : (settleTickGo cur ntf (tets.length + 1) tets []).2 with
    | nil => rfl
    | cons a as =>
      rw [hl] at h2
      exact absurd h2 (by simp)
  have h1 : (settleTickGo cur ntf (tets.length + 1) tets []).1 = tets :=
    settleTickGo_no_new cur ntf (tets.length + 1) tets [] List.nodup_nil
      (fun x hx => absurd hx (List.not_mem_nil x)) hmv
  have hfix := settleTickGo_fix cur ntf (tets.length + 1) tets [] List.nodup_nil
    (fun x hx => absurd hx (List.not_mem_nil x)) (by simp)
  rw [h1, hmv] at hfix
  exact ⟨h1, hfix⟩

/-- A settling round that reports movement strictly decreases the measure
(when every piece has a cell). -/
theorem settleTick_true_measure (cur : Option Nat) (ntf : Bool) (tets : List Tet)
    (hcells : ∀ j t, tets.get? j = some t → cellsOfShape t.shape ≠ [])
    (h : (settleTick cur ntf tets).2 = true) :
    settleMeasure (settleTick cur ntf tets).1 < settleMeasure tets := by
  by_cases hmoved : (settlePass cur ntf tets []).2.2 = true
  · obtain ⟨_, hstrict⟩ :=
      settlePassGo_measure cur ntf (List.range tets.length) tets [] false hcells
    have hs : settleMeasure (settlePass cur ntf tets []).1 < settleMeasure tets :=
      hstrict rfl hmoved
    obtain ⟨_, hs1⟩ :=
      settlePassGo_shapes cur ntf (List.range tets.length) tets [] false
    have hcells2 :=
      cellsHyp_preserved tets (settlePass cur ntf tets []).1 hs1 hcells
    have hmono := settleTickGo_measure cur ntf tets.length
      (settlePass cur ntf tets []).1 (settlePass cur ntf tets []).2.1 hcells2
    have hrw : (settleTick cur ntf tets).1 =
        (settleTickGo cur ntf tets.length (settlePass cur ntf tets []).1
          (settlePass cur ntf tets []).2.1).1 := by
      show (settleTickGo cur ntf (tets.length + 1) tets []).1 = _
      rw [settleTickGo, if_pos hmoved]
    rw [hrw]
    omega
  · exfalso
    have hfalse : (settlePass cur ntf tets []).2.2 = false := by
      rw [Bool.not_eq_true] at hmoved
      exact hmoved
    obtain ⟨he, _⟩ :=
      settlePassGo_no_move cur ntf (List.range tets.length) tets [] hfalse
    have he2 : settlePass cur ntf tets [] = (tets, [], false) := he
    have h2 : (settleTick cur ntf tets).2 = false := by
      show (!(settleTickGo cur ntf (tets.length + 1) tets []).2.isEmpty) = false
      rw [settleTickGo, if_neg hmoved, he2]
      rfl
    rw [h] at h2
    cases h2

/-- With fuel exceeding the measure, the outer rounds reach a genuine fixed
point: one more round changes nothing and moves nothing. -/
theorem settleGo_fix (cur : Option Nat) (ntf : Bool) :
    ∀ (fuel : Nat) (tets : List Tet),
      (∀ j t, tets.get? j = some t → cellsOfShape t.shape ≠ []) →
      settleMeasure tets < fuel →
      settleTick cur ntf (settleGo cur ntf fuel tets) =
        (settleGo cur ntf fuel tets, false) := by
  intro fuel
  induction fuel with
  | zero =>
    intro tets _ hm
    exact absurd hm (Nat.not_lt_zero _)
  | succ f ih =>
    intro tets hcells hm
    rw [settleGo]
    by_cases ht : (settleTick cur ntf tets).2 = true
    · rw [if_pos ht]
      apply ih
      · obtain ⟨_, hs1⟩ := settleTickGo_shapes cur ntf (tets.length + 1) tets []
        exact cellsHyp_preserved tets (settleTick cur ntf tets).1 hs1 hcells
      · have hdec := settleTick_true_measure cur ntf tets hcells ht
        omega
    · rw [if_neg ht]
      have hfb : (settleTick cur ntf tets).2 = false := by
        rw [Bool.not_eq_true] at ht
        exact ht
      obtain ⟨h1, _⟩ := settleTick_false cur ntf tets hfb
      rw [h1]
      exact Prod.ext h1 hfb

/-! ### C7 -/

/-- C7: whenever every live piece has at least one occupied cell, the
settling loop of `Tet.collided` reaches its fixed point.  Running one extra
round after `settle` moves zero pieces and changes nothing; at that fixed
point every piece that a round would visit (that is, every piece except the
skipped current one) is bottom-blocked at `topLeft.row + 1`; and the
cascade then re-runs line-clear detection on the settled board whenever the
detection found full rows. -/
theorem c7_settle_fixed_point (cur : Option Nat) (ntf : Bool) (tets : List Tet)
    (hcells : ∀ j t, tets.get? j = some t → cellsOfShape t.shape ≠ []) :
    settleTick cur ntf (settle cur ntf tets) = (settle cur ntf tets, false) ∧
    (∀ i t, (settle cur ntf tets).get? i = some t →
      ¬(cur = some i ∧ ntf = false) →
      doesTetCollideBot (settle cur ntf tets) (i :: cur.toList) t.shape
        ⟨t.topLeft.row + 1, t.topLeft.col⟩ = true) ∧
    (∀ (fuel : Nat) (startRow : Int) (score : Real),
      fullRowsFrom tets startRow ≠ [] →
      collidedCascade cur ntf (fuel + 1) tets startRow score =
        collidedCascade cur ntf fuel
          (settle cur ntf (alterShapes tets (fullRowsFrom tets startRow))) startRow
          (score + ((fullRowsFrom tets startRow).length : Real) ^
            ((1 : Real) + (((fullRowsFrom tets startRow).length : Real) - 1) * 0.1) *
            10000)) := by
  have h1 : settleTick cur ntf (settle cur ntf tets) = (settle cur ntf tets, false) :=
    settleGo_fix cur ntf (settleMeasure tets + 1) tets hcells (Nat.lt_succ_self _)
  refine ⟨h1, ?_, ?_⟩
  · have hfb : (settleTick cur ntf (settle cur ntf tets)).2 = false := by
      rw [h1]
    obtain ⟨_, hpass⟩ := settleTick_false cur ntf (settle cur ntf tets) hfb
    have hfalse : (settlePass cur ntf (settle cur ntf tets) []).2.2 = false := by
      rw [hpass]
    obtain ⟨_, hall⟩ := settlePassGo_no_move cur ntf
      (List.range (settle cur ntf tets).length) (settle cur ntf tets) [] hfalse
    intro i t hti hskip
    obtain ⟨hlt, _⟩ := List.get?_eq_some.mp hti
    have hi := hall i (List.mem_range.mpr hlt)
    rcases hi with (hmem | hcur) | hnone | hblk
    · exact absurd hmem (List.not_mem_nil i)
    · exact absurd hcur hskip
    · rw [hti] at hnone
      cases hnone
    · exact hblk t hti
  · intro fuel startRow score hfr
    simp only [collidedCascade]
    rw [if_neg (fun h0 => hfr (List.length_eq_zero.mp h0))]

/-- Concrete instance of the settling fixed point: a single loose one-cell
piece at the top settles, and one extra round then moves nothing. -/
theorem c7_settle_fixed_point_witness :
    settleTick none true (settle none true [looseTet]) =
      (settle none true [looseTet], false) :=
  (c7_settle_fixed_point none true [looseTet] (by
    intro j t ht
    cases j with
    | zero =>
      rw [List.get?_cons_zero] at ht
      cases Option.some.inj ht
      decide
    | succ j2 =>
      rw [List.get?_cons_succ, List.get?_nil] at ht
      exact Option.noConfusion ht)).1

/-! ### C1 -/

/-- C1 fails on the code: replaying `bugTrace` from the empty initial state
reaches a state whose two live pieces (a landed vertical I occupying rows
12-15 of column 9, and the active T piece, wall-kicked by `rotate` into
anchor `(11, 8)`) share the board cells `(12, 9)` and `(13, 9)`.  The
`rotate` method collision-checks the candidate shape at `topLeft.col` but
commits it at `topLeft.col + pivot` without re-checking, so the claimed
invariant is violated at a reachable state. -/
theorem c1_invariant_fails :
    (runActs bugTrace).tets.length = 2 ∧
    boardInvB (runActs bugTrace).tets = false := by decide

end Tetris
